import Mathlib

/-!
Verification development for the DAG-visualiser repository.

The repository has two independent cores:

* `app.py` — an expression pipeline (`RegisterAllocator`): a recursive-descent
  parser producing a tree of `DAGNode`s, Sethi–Ullman labeling
  (`_assign_label`), three-address-code generation
  (`_generate_three_address_code`), an algebraic rearrangement pass
  (`_rearrange_node` / `rearrange_dag`), a symbolic allocation-step trace
  (`_generate_allocation_steps`), and a visualization export
  (`get_dag_as_dict`).

* `dag_register_allocation.py` — a live-range register allocator over a
  generic digraph (`DAGRegisterAllocation`): topological levels
  (`compute_node_levels`), live ranges (`compute_live_ranges`) and greedy
  interval coloring (`allocate_registers`), plus `add_node`/`add_edge`
  graph construction.

The expression pipeline is embedded twice, at two levels of detail that
mirror the same source lines:

* a structural tree model (`LTree`), used for the universally quantified
  claims — faithful to the Python object graph because the reachable part
  of the expression DAG is always a tree (the parser builds a fresh node
  per recursive call, and the rearranger only swaps or regroups children);
  node ids and the mutable `label` field are carried in the tree so that
  stale-label behaviour of `_rearrange_node` is reproduced exactly;

* a node-store model (`Store`), used for the visualization-export claim,
  where `self.nodes` retains every node ever created (including discarded
  associativity candidates) and children are ids into the store.
-/

namespace DAGVis

/-! ## Tree model of `DAGNode`

A `DAGNode` in `app.py` has `id`, `value`, `node_type` (variable/operation),
`children` and a mutable `label`.  The parser only creates leaf variable
nodes and binary operation nodes, so the tree model has exactly those two
shapes.  Python initialises `label = None`; the pipeline always runs
`assign_labels` before any label is read, so the model initialises the
label field to 0. -/

inductive LTree where
  | var (id : Nat) (value : String) (label : Nat)
  | op (id : Nat) (value : String) (left right : LTree) (label : Nat)
deriving Repr, DecidableEq

namespace LTree

def label : LTree → Nat
  | .var _ _ l => l
  | .op _ _ _ _ l => l

def value : LTree → String
  | .var _ v _ => v
  | .op _ v _ _ _ => v

def nodeId : LTree → Nat
  | .var i _ _ => i
  | .op i _ _ _ _ => i

def isVar : LTree → Bool
  | .var .. => true
  | .op .. => false

end LTree

/-! ## Sethi–Ullman labeling (`_assign_label`, app.py lines 201–237)

`_assign_label(node, is_leftmost)` stores a label on every node of the
subtree and returns the root's label:
* variable: 1 if `is_leftmost` else 0;
* binary operation: left child labeled with `is_leftmost=True`, right child
  with `False`; own label is `L+1` if `L == R` else `max(L, R)`.
(The unary and zero-children cases of the Python code are unreachable for
parser-produced trees, which contain only variables and binary operations.)
The mutation is modeled by returning the relabeled tree. -/

def suComb (a b : Nat) : Nat := if a = b then a + 1 else max a b

def assign_label (is_leftmost : Bool) : LTree → LTree
  | .var i v _ => .var i v (if is_leftmost then 1 else 0)
  | .op i s l r _ =>
    let l' := assign_label true l
    let r' := assign_label false r
    .op i s l' r' (suComb l'.label r'.label)

/-- `assign_labels` (app.py lines 194–199): label from the root with
`is_leftmost = True`. -/
def assign_labels (t : LTree) : LTree := assign_label true t

/-- The freshly computed root label of `t` under flag `f`, ignoring whatever
labels are currently stored in `t`. -/
def fresh (f : Bool) (t : LTree) : Nat := (assign_label f t).label

/-! ## The parser (`_parse_expression`, app.py lines 82–169)

The Python code scans the expression right-to-left, tracking parenthesis
depth, and splits at the first (i.e. rightmost) depth-0 `+`/`-`; failing
that, at the rightmost depth-0 `*`/`/`; failing that it strips one full
parenthesis wrap; otherwise the string must be a single character or a run
of alphanumeric/underscore characters (a variable token).

Errors (`ValueError` in Python, one constructor per raise-message class;
`emptyExpression` is the distinguished zero-length-input error, the other
three are the malformed-syntax class):
* "Empty expression"
* "Mismatched parentheses in expression: …"
* "Invalid expression around operator '…': …"
* "Could not parse expression: …" -/

inductive ParseErr where
  | emptyExpression
  | mismatchedParens
  | invalidAroundOp
  | couldNotParse
deriving Repr, DecidableEq

/-- Python `c.isalnum() or c == '_'` (restricted to the ASCII range that the
test inputs use). -/
def isTokChar (c : Char) : Bool := c.isAlphanum || c = '_'

def opChars : List Char := ['+', '-', '*', '/']

/-- The right-to-left scan of `_parse_expression`: the argument is the
reversed remaining input, `lvl` the current parenthesis level (`)` raises
it, `(` lowers it; going below 0 is the "Mismatched parentheses" error),
`acc` the part already scanned, in original order.  Returns the split at
the first depth-0 operator from `ops` encountered (i.e. the rightmost in
the original string), or `none`. -/
def findSplitGo (ops : List Char) : List Char → Nat → List Char →
    Except ParseErr (Option (List Char × Char × List Char))
  | [], _, _ => .ok none
  | c :: rest, lvl, acc =>
    if c = ')' then findSplitGo ops rest (lvl + 1) (c :: acc)
    else if c = '(' then
      if lvl = 0 then .error .mismatchedParens
      else findSplitGo ops rest (lvl - 1) (c :: acc)
    else if lvl = 0 ∧ c ∈ ops then .ok (some (rest.reverse, c, acc))
    else findSplitGo ops rest lvl (c :: acc)

def findSplit (ops : List Char) (cs : List Char) :
    Except ParseErr (Option (List Char × Char × List Char)) :=
  findSplitGo ops cs.reverse 0 []

/-- The left-to-right wrap check of app.py lines 148–161: scan parenthesis
levels; if the level returns to 0 at a `)` before the final character the
loop breaks and the expression is not one full wrap.  Called on a string
that starts with `(`, so the initial level is at least 1 after the first
character. -/
def wrapGo : List Char → Nat → Bool
  | [], _ => true
  | c :: rest, lvl =>
    if c = ')' then
      if lvl - 1 = 0 ∧ rest ≠ [] then false else wrapGo rest (lvl - 1)
    else if c = '(' then wrapGo rest (lvl + 1)
    else wrapGo rest lvl

def wrapOk (cs : List Char) : Bool := wrapGo cs 0

/-- `expr.count('(')` — the number of `(` characters. -/
def cntL : List Char → Nat
  | [] => 0
  | c :: cs => (if c = '(' then 1 else 0) + cntL cs

/-- `expr.count(')')` — the number of `)` characters. -/
def cntR : List Char → Nat
  | [] => 0
  | c :: cs => (if c = ')' then 1 else 0) + cntR cs

/-- `_parse_expression` itself.  `nid` is `self.next_id`; an operation node
is created (consuming an id) before its operands are parsed, matching
`create_node` call order in the source.  The code recurses on strictly
shorter strings; totality is by fuel, with `fuel > length` always
sufficient. -/
def parse_expr (ops1 ops2 : List Char) : Nat → List Char → Nat →
    Except ParseErr (LTree × Nat)
  | 0, _, _ => .error .couldNotParse
  | fuel + 1, cs, nid =>
    if cs = [] then .error .emptyExpression
    else
      match findSplit ops1 cs with
      | .error e => .error e
      | .ok (some (l, c, r)) =>
        if l = [] ∨ r = [] then .error .invalidAroundOp
        else
          match parse_expr ops1 ops2 fuel l (nid + 1) with
          | .error e => .error e
          | .ok (lt, nid1) =>
            match parse_expr ops1 ops2 fuel r nid1 with
            | .error e => .error e
            | .ok (rt, nid2) => .ok (.op nid (String.mk [c]) lt rt 0, nid2)
      | .ok none =>
        match findSplit ops2 cs with
        | .error e => .error e
        | .ok (some (l, c, r)) =>
          if l = [] ∨ r = [] then .error .invalidAroundOp
          else
            match parse_expr ops1 ops2 fuel l (nid + 1) with
            | .error e => .error e
            | .ok (lt, nid1) =>
              match parse_expr ops1 ops2 fuel r nid1 with
              | .error e => .error e
              | .ok (rt, nid2) => .ok (.op nid (String.mk [c]) lt rt 0, nid2)
        | .ok none =>
          if cs.head? = some '(' ∧ cs.getLast? = some ')' then
            if cntL cs ≠ cntR cs then .error .mismatchedParens
            else if wrapOk cs then parse_expr ops1 ops2 fuel (cs.tail.dropLast) nid
            else
              if cs.length = 1 ∨ cs.all isTokChar then .ok (.var nid (String.mk cs) 0, nid + 1)
              else .error .couldNotParse
          else
            if cs.length = 1 ∨ cs.all isTokChar then .ok (.var nid (String.mk cs) 0, nid + 1)
            else .error .couldNotParse

/-- `parse_expression` (app.py lines 68–80) up to the point where the root
is set: strip all whitespace, normalise the Unicode multiplication glyph,
reset the state (`next_id = 0`) and run `_parse_expression`.  Returns the
tree and the final `next_id`. -/
def parse_root (s : String) : Except ParseErr (LTree × Nat) :=
  let cs := (s.toList.filter (fun c => !c.isWhitespace)).map
    (fun c => if c = '∗' then '*' else c)
  parse_expr ['+', '-'] ['*', '/'] (cs.length + 1) cs 0

def parse_expression (s : String) : Except ParseErr LTree :=
  match parse_root s with
  | .error e => .error e
  | .ok (t, _) => .ok t

/-! ## Three-address code (`_generate_three_address_code`, app.py 171–188)

Post-order emission; each binary operation allocates the next temporary
`t{temp_counter}` (`get_next_temp`, lines 62–66) and appends one statement;
a variable's result is its own name.  State: the accumulated statement list
and the temp counter. -/

def generate_three_address_code : LTree → List String → Nat →
    String × List String × Nat
  | .var _ v _, code, tc => (v, code, tc)
  | .op _ s l r _, code, tc =>
    let (lr, code1, tc1) := generate_three_address_code l code tc
    let (rr, code2, tc2) := generate_three_address_code r code1 tc1
    let temp := "t" ++ toString tc2
    (temp, code2 ++ [temp ++ " = " ++ lr ++ " " ++ s ++ " " ++ rr], tc2 + 1)

/-- `parse_expression` (app.py 68–80) in full: parse, then generate the
three-address code (the counter starts at 1 after `reset`).  Returns
(root, code, temp counter, next node id). -/
def parse_pipeline (s : String) : Except ParseErr (LTree × List String × Nat × Nat) :=
  match parse_root s with
  | .error e => .error e
  | .ok (t, nid) =>
    let (_, code, tc) := generate_three_address_code t [] 1
    .ok (t, code, tc, nid)

/-! ## Allocation-step trace (`_generate_allocation_steps`, app.py 335–374)

`register_map` is a Python dict from node id to a symbolic register name;
modeled as an insertion-ordered association list with dict update
semantics.  A variable loads into `R{len(register_map)+1}`; a binary node
evaluates the higher-labeled child first (right first exactly when
`left.label < right.label`), emits `left op right → left`, deletes every
entry holding the right register, then records its own id at the left
register. -/

def dinsert (k : Nat) (v : String) (m : List (Nat × String)) : List (Nat × String) :=
  if m.any (fun p => p.1 = k) then
    m.map (fun p => if p.1 = k then (k, v) else p)
  else m ++ [(k, v)]

/-- The combine step at a binary node: emit `left op right → left`, delete
every entry holding the right register, record the node at the left
register. -/
def finishStep (i : Nat) (s lr rr : String) (steps : List String)
    (rm : List (Nat × String)) : String × List String × List (Nat × String) :=
  (lr, steps ++ [lr ++ " " ++ s ++ " " ++ rr ++ " → " ++ lr],
    dinsert i lr (rm.filter (fun p => p.2 ≠ rr)))

def generate_allocation_steps (t : LTree) (rm : List (Nat × String)) :
    String × List String × List (Nat × String) :=
  match t with
  | .var i v _ =>
    let reg := "R" ++ toString (rm.length + 1)
    (reg, ["Load " ++ v ++ " into " ++ reg], dinsert i reg rm)
  | .op i s l r _ =>
    if l.label < r.label then
      let R := generate_allocation_steps r rm
      let L := generate_allocation_steps l R.2.2
      finishStep i s L.1 R.1 (R.2.1 ++ L.2.1) L.2.2
    else
      let L := generate_allocation_steps l rm
      let R := generate_allocation_steps r L.2.2
      finishStep i s L.1 R.1 (L.2.1 ++ R.2.1) R.2.2

/-- `get_allocation_steps` (app.py 326–333): the step list from an empty
register map. -/
def get_allocation_steps (t : LTree) : List String :=
  (generate_allocation_steps t []).2.1

/-- The number of distinct symbolic register names currently live in the
register map (specification-side measure, not part of the source). -/
def liveCount (m : List (Nat × String)) : Nat := (m.map Prod.snd).toFinset.card

/-- The peak of `liveCount` over every intermediate register map reached
while `generate_allocation_steps` runs on `t` from map `m`
(specification-side measure following the same recursion). -/
def livePeak (t : LTree) (rm : List (Nat × String)) : Nat :=
  match t with
  | .var i _ _ =>
    liveCount (dinsert i ("R" ++ toString (rm.length + 1)) rm)
  | .op i _ l r _ =>
    if l.label < r.label then
      let R := generate_allocation_steps r rm
      let L := generate_allocation_steps l R.2.2
      max (max (livePeak r rm) (livePeak l R.2.2))
        (liveCount (dinsert i L.1 (L.2.2.filter (fun p => p.2 ≠ R.1))))
    else
      let L := generate_allocation_steps l rm
      let R := generate_allocation_steps r L.2.2
      max (max (livePeak l rm) (livePeak r L.2.2))
        (liveCount (dinsert i L.1 (R.2.2.filter (fun p => p.2 ≠ R.1))))

/-! ## Rearrangement (`_rearrange_node`, app.py 251–295; `rearrange_dag`, 239–249)

Children are rearranged first.  Then, with `left_child`/`right_child` bound
to the (already-rearranged) children *before* any swap:
* commutativity: if the operator is `+`/`*` and `right_child.label >
  left_child.label` (stored labels), the children are swapped;
* associativity: if the operator is `+`/`*` and `left_child.value` equals
  it, a candidate node `temp = (left_child.right ∘ right_child)` is created
  (consuming a fresh id) and labeled by `_assign_label(temp)` — which
  relabels the `left_child.right` and `right_child` subtrees in place, a
  side effect that persists even if the candidate is discarded; if
  `max(left_child.left.label, temp.label) < max(left_child.label,
  right_child.label)` the node's children become `[left_child.left, temp]`
  (overwriting any swap), otherwise the candidate is discarded.

The Python guard `left_child.value == node.value` would crash with an
IndexError on a variable node whose name is `+` or `*` (it immediately
indexes `left_child.children[0]`); such trees are not produced by the
parser, and the model takes the branch only for operation nodes.

The node's own stored label is never updated here; `rearrange_dag`
re-runs `assign_labels` and regenerates the three-address code (without
resetting `temp_counter`) afterwards. -/

def plusTimes : List String := ["+", "*"]

/-- The body of `_rearrange_node` at a binary node after both children have
been rearranged: `l'`/`r'` are the already-rearranged children (the Python
locals `left_child`/`right_child`), `nid2` is `self.next_id`. -/
def rearrange_op (i : Nat) (s : String) (lb : Nat) (l' r' : LTree) (nid2 : Nat) :
    LTree × Nat :=
  match l' with
  | .op ia sa la ra lba =>
    if s ∈ plusTimes ∧ sa = s then
      let temp := assign_label true (.op nid2 s ra r' 0)
      if max la.label temp.label < max lba r'.label then
        (.op i s la temp lb, nid2 + 1)
      else
        let lFix : LTree := .op ia sa la (assign_label true ra) lba
        let rFix : LTree := assign_label false r'
        if s ∈ plusTimes ∧ lba < r'.label then (.op i s rFix lFix lb, nid2 + 1)
        else (.op i s lFix rFix lb, nid2 + 1)
    else
      if s ∈ plusTimes ∧ lba < r'.label then (.op i s r' (.op ia sa la ra lba) lb, nid2)
      else (.op i s (.op ia sa la ra lba) r' lb, nid2)
  | .var ia va lba =>
    if s ∈ plusTimes ∧ lba < r'.label then (.op i s r' (.var ia va lba) lb, nid2)
    else (.op i s (.var ia va lba) r' lb, nid2)

def rearrange_node (t : LTree) (nid : Nat) : LTree × Nat :=
  match t with
  | .var i v lb => (.var i v lb, nid)
  | .op i s l r lb =>
    let L := rearrange_node l nid
    let R := rearrange_node r L.2
    rearrange_op i s lb L.1 R.1 R.2

/-- `rearrange_dag` (app.py 239–249): rearrange from the root, re-assign
labels, clear the code list and regenerate it with the *current* temp
counter (`temp_counter` is not reset).  Returns (new root, regenerated
code, new temp counter, new next id). -/
def rearrange_dag (t : LTree) (nid tc : Nat) : LTree × List String × Nat × Nat :=
  let (t1, nid') := rearrange_node t nid
  let t2 := assign_labels t1
  let (_, code, tc') := generate_three_address_code t2 [] tc
  (t2, code, tc', nid')

/-! ## Basic facts about the labeler -/

theorem suComb_ge_left (a b : Nat) : a ≤ suComb a b := by
  simp only [suComb, Nat.max_def]; split_ifs <;> omega

theorem suComb_ge_right (a b : Nat) : b ≤ suComb a b := by
  simp only [suComb, Nat.max_def]; split_ifs <;> omega

theorem suComb_comm (a b : Nat) : suComb a b = suComb b a := by
  simp only [suComb, Nat.max_def]; split_ifs <;> omega

theorem suComb_mono {a b a' b' : Nat} (ha : a' ≤ a) (hb : b' ≤ b) :
    suComb a' b' ≤ suComb a b := by
  simp only [suComb, Nat.max_def]; split_ifs <;> omega

/-- Relabeling overwrites previous labels: a second `_assign_label` pass
only depends on the structure. -/
theorem assign_label_assign_label (f g : Bool) (t : LTree) :
    assign_label f (assign_label g t) = assign_label f t := by
  induction t generalizing f g with
  | var i v lb => simp [assign_label]
  | op i s l r lb ihl ihr => simp [assign_label, ihl, ihr]

/-- A tree is properly labeled under flag `f` when relabeling it under `f`
changes nothing. -/
def proper (f : Bool) (t : LTree) : Prop := assign_label f t = t

theorem proper_assign_label (f : Bool) (t : LTree) : proper f (assign_label f t) :=
  assign_label_assign_label f f t

theorem fresh_assign_label (f g : Bool) (t : LTree) :
    fresh f (assign_label g t) = fresh f t := by
  simp [fresh, assign_label_assign_label]

theorem fresh_var (f : Bool) (i : Nat) (v : String) (lb : Nat) :
    fresh f (.var i v lb) = if f then 1 else 0 := rfl

theorem fresh_op (f : Bool) (i : Nat) (s : String) (l r : LTree) (lb : Nat) :
    fresh f (.op i s l r lb) = suComb (fresh true l) (fresh false r) := rfl

theorem proper_label {f : Bool} {t : LTree} (h : proper f t) : t.label = fresh f t := by
  rw [fresh, h]

theorem proper_var_iff (f : Bool) (i : Nat) (v : String) (lb : Nat) :
    proper f (.var i v lb) ↔ lb = if f then 1 else 0 := by
  simp [proper, assign_label, eq_comm]

theorem proper_op_iff (f : Bool) (i : Nat) (s : String) (l r : LTree) (lb : Nat) :
    proper f (.op i s l r lb) ↔
      proper true l ∧ proper false r ∧ lb = suComb (fresh true l) (fresh false r) := by
  constructor
  · intro h
    have h' := h
    simp only [proper, assign_label, LTree.op.injEq, true_and] at h'
    obtain ⟨hl, hr, hlb⟩ := h'
    exact ⟨hl, hr, hlb.symm⟩
  · rintro ⟨hl, hr, hlb⟩
    simp only [proper, assign_label, LTree.op.injEq, true_and]
    exact ⟨hl, hr, hlb.symm⟩

theorem one_le_fresh_true (t : LTree) : 1 ≤ fresh true t := by
  induction t with
  | var i v lb => simp [fresh_var]
  | op i s l r lb ihl ihr =>
    calc 1 ≤ fresh true l := ihl
    _ ≤ suComb (fresh true l) (fresh false r) := suComb_ge_left _ _
    _ = fresh true (.op i s l r lb) := (fresh_op _ _ _ _ _ _).symm

/-- Stored labels dominate fresh labels on every operation node (leaves are
unconstrained); the invariant maintained by rearrangement. -/
def SGF : LTree → Prop
  | .var _ _ _ => True
  | .op i s l r lb => fresh true (.op i s l r lb) ≤ lb ∧ SGF l ∧ SGF r

theorem SGF_of_proper {f : Bool} {t : LTree} (h : proper f t) : SGF t := by
  induction t generalizing f with
  | var i v lb => trivial
  | op i s l r lb ihl ihr =>
    rw [proper_op_iff] at h
    obtain ⟨hl, hr, hlb⟩ := h
    exact ⟨by rw [fresh_op, hlb], ihl hl, ihr hr⟩

theorem max_le_suComb (a b : Nat) : max a b ≤ suComb a b :=
  max_le (suComb_ge_left a b) (suComb_ge_right a b)

theorem fresh_flag (f g : Bool) {t : LTree} (h : t.isVar = false) :
    fresh f t = fresh g t := by
  cases t with
  | var => simp [LTree.isVar] at h
  | op => rw [fresh_op, fresh_op]

theorem SGF_op_head {i : Nat} {s : String} {l r : LTree} {lb : Nat}
    (h : SGF (.op i s l r lb)) : fresh true (LTree.op i s l r lb) ≤ lb := h.1

/-- Fresh-label behaviour of the rearrangement step at one binary node.  The
hypotheses collect what holds for the already-rearranged children of a node
that was properly labeled when `_rearrange_node` reached it. -/
theorem rearrange_op_spec (i : Nat) (s : String) (lb : Nat) (l' r' : LTree)
    (nid2 : Nat) (Le Re : Nat)
    (hl1 : l'.label = Le) (hr1 : r'.label = Re)
    (hsl : SGF l') (hsr : SGF r')
    (q1 : fresh true l' ≤ Le) (q2 : fresh false r' ≤ Re)
    (q3 : l'.isVar = false → fresh false l' ≤ Le)
    (q4 : r'.isVar = false → fresh true r' ≤ Re)
    (q5 : r'.isVar = true → Re = 0)
    (q6 : 1 ≤ Le)
    (hlb : lb = suComb Le Re) :
    (rearrange_op i s lb l' r' nid2).1.label = lb ∧
    (rearrange_op i s lb l' r' nid2).1.isVar = false ∧
    SGF (rearrange_op i s lb l' r' nid2).1 ∧
    ∀ g : Bool, fresh g (rearrange_op i s lb l' r' nid2).1 ≤ suComb Le Re := by
  have hMle : max Le Re ≤ suComb Le Re := max_le_suComb Le Re
  -- the swap-fires situation forces the right child to be an operation node
  have swapOp : Le < Re → r'.isVar = false := by
    intro hlt
    cases hv : r'.isVar with
    | false => rfl
    | true => exact absurd (q5 hv ▸ hlt) (by omega)
  cases l' with
  | var ia va lba =>
    have hfl0 : fresh false (LTree.var ia va lba) = 0 := rfl
    simp only [rearrange_op]
    split_ifs with hswap
    · -- swap: children become [r', var]
      obtain ⟨hpt, hlt⟩ := hswap
      simp only [LTree.label] at hl1
      have hrop : r'.isVar = false := swapOp (by omega)
      have h4 := q4 hrop
      have hfr1 : 1 ≤ fresh true r' := one_le_fresh_true r'
      have hbound : ∀ g : Bool,
          fresh g (LTree.op i s r' (.var ia va lba) lb) ≤ suComb Le Re := by
        intro g
        rw [fresh_op, hfl0]
        have : suComb (fresh true r') 0 = fresh true r' := by
          simp only [suComb, Nat.max_def]; split_ifs <;> omega
        rw [this]
        calc fresh true r' ≤ Re := h4
        _ ≤ max Le Re := le_max_right _ _
        _ ≤ suComb Le Re := hMle
      refine ⟨rfl, rfl, ⟨?_, hsr, trivial⟩, hbound⟩
      rw [hlb] at hbound ⊢
      exact hbound true
    · have hbound : ∀ g : Bool,
          fresh g (LTree.op i s (.var ia va lba) r' lb) ≤ suComb Le Re := by
        intro g
        rw [fresh_op]
        exact suComb_mono q1 q2
      refine ⟨rfl, rfl, ⟨?_, trivial, hsr⟩, hbound⟩
      rw [hlb] at hbound ⊢
      exact hbound true
  | op ia sa la ra lba =>
    simp only [LTree.label] at hl1
    have hflop : fresh false (LTree.op ia sa la ra lba) ≤ Le :=
      q3 (by simp [LTree.isVar])
    simp only [rearrange_op]
    split_ifs with hassoc hcommit hswap
    · -- associativity committed
      set temp := assign_label true (.op nid2 s ra r' 0) with htemp
      have hT : temp.label = suComb (fresh true ra) (fresh false r') := rfl
      have hTfresh : ∀ g : Bool, fresh g temp = temp.label := by
        intro g
        rw [htemp, fresh_assign_label]
        rfl
      have hMeq : max lba r'.label = max Le Re := by rw [hl1, hr1]
      have hlaB : fresh true la ≤ suComb Le Re := by
        cases la with
        | var i2 v2 lb2 =>
          have h1 : fresh true (LTree.var i2 v2 lb2) = 1 := rfl
          rw [h1]
          exact le_trans q6 (suComb_ge_left _ _)
        | op i2 s2 l2 r2 lb2 =>
          have h1 : fresh true (LTree.op i2 s2 l2 r2 lb2) ≤ lb2 := hsl.2.1.1
          have h2 : (LTree.op i2 s2 l2 r2 lb2).label = lb2 := rfl
          rw [h2] at hcommit
          have h3 : fresh true (LTree.op i2 s2 l2 r2 lb2) < max Le Re := by
            calc fresh true (LTree.op i2 s2 l2 r2 lb2) ≤ lb2 := h1
            _ ≤ max lb2 temp.label := le_max_left _ _
            _ < max lba r'.label := hcommit
            _ = max Le Re := hMeq
          exact le_trans (le_of_lt h3) hMle
      have hTB : temp.label < max Le Re := by
        rw [Nat.max_lt] at hcommit
        calc temp.label < max lba r'.label := hcommit.2
        _ = max Le Re := hMeq
      have hbound : ∀ g : Bool,
          fresh g (LTree.op i s la temp lb) ≤ suComb Le Re := by
        intro g
        rw [fresh_op, hTfresh false]
        rcases eq_or_ne (fresh true la) temp.label with he | hne
        · rw [suComb, if_pos he, he]
          omega
        · rw [suComb, if_neg hne]
          exact max_le hlaB (le_trans (le_of_lt hTB) hMle)
      refine ⟨rfl, rfl, ⟨?_, hsl.2.1, SGF_of_proper (proper_assign_label true _)⟩,
        hbound⟩
      rw [hlb] at hbound ⊢
      exact hbound true
    · -- associativity discarded, commutativity had swapped
      have hrop : r'.isVar = false := swapOp (by rw [← hl1, ← hr1]; exact hswap.2)
      have h4 := q4 hrop
      have hbound : ∀ g : Bool,
          fresh g (LTree.op i s (assign_label false r')
            (.op ia sa la (assign_label true ra) lba) lb) ≤ suComb Le Re := by
        intro g
        rw [fresh_op, fresh_assign_label]
        have hfix : fresh false (LTree.op ia sa la (assign_label true ra) lba) =
            fresh false (LTree.op ia sa la ra lba) := by
          rw [fresh_op, fresh_op, fresh_assign_label]
        rw [hfix]
        calc suComb (fresh true r') (fresh false (LTree.op ia sa la ra lba))
            = suComb (fresh false (LTree.op ia sa la ra lba)) (fresh true r') :=
              suComb_comm _ _
        _ ≤ suComb Le Re := suComb_mono hflop h4
      refine ⟨rfl, rfl, ⟨?_, SGF_of_proper (proper_assign_label false r'), ?_, ?_, ?_⟩,
        hbound⟩
      · rw [hlb] at hbound ⊢
        exact hbound true
      · -- stored label of the fixed left child still dominates its fresh label
        have : fresh true (LTree.op ia sa la (assign_label true ra) lba) =
            fresh true (LTree.op ia sa la ra lba) := by
          rw [fresh_op, fresh_op, fresh_assign_label]
        rw [this]
        exact hsl.1
      · exact hsl.2.1
      · exact SGF_of_proper (proper_assign_label true ra)
    · -- associativity discarded, no swap
      have hbound : ∀ g : Bool,
          fresh g (LTree.op i s (.op ia sa la (assign_label true ra) lba)
            (assign_label false r') lb) ≤ suComb Le Re := by
        intro g
        rw [fresh_op, fresh_assign_label]
        have hfix : fresh true (LTree.op ia sa la (assign_label true ra) lba) =
            fresh true (LTree.op ia sa la ra lba) := by
          rw [fresh_op, fresh_op, fresh_assign_label]
        rw [hfix]
        exact suComb_mono q1 q2
      refine ⟨rfl, rfl, ⟨?_, ⟨?_, hsl.2.1, SGF_of_proper (proper_assign_label true ra)⟩,
        SGF_of_proper (proper_assign_label false r')⟩, hbound⟩
      · rw [hlb] at hbound ⊢
        exact hbound true
      · have : fresh true (LTree.op ia sa la (assign_label true ra) lba) =
            fresh true (LTree.op ia sa la ra lba) := by
          rw [fresh_op, fresh_op, fresh_assign_label]
        rw [this]
        exact hsl.1
    · -- no associativity, swap fired
      rename_i hswap2
      have hrop : r'.isVar = false := swapOp (by rw [← hl1, ← hr1]; exact hswap2.2)
      have h4 := q4 hrop
      have hbound : ∀ g : Bool,
          fresh g (LTree.op i s r' (.op ia sa la ra lba) lb) ≤ suComb Le Re := by
        intro g
        rw [fresh_op]
        calc suComb (fresh true r') (fresh false (LTree.op ia sa la ra lba))
            = suComb (fresh false (LTree.op ia sa la ra lba)) (fresh true r') :=
              suComb_comm _ _
        _ ≤ suComb Le Re := suComb_mono hflop h4
      refine ⟨rfl, rfl, ⟨?_, hsr, hsl⟩, hbound⟩
      rw [hlb] at hbound ⊢
      exact hbound true
    · -- no associativity, no swap
      have hbound : ∀ g : Bool,
          fresh g (LTree.op i s (.op ia sa la ra lba) r' lb) ≤ suComb Le Re := by
        intro g
        rw [fresh_op]
        exact suComb_mono q1 q2
      refine ⟨rfl, rfl, ⟨?_, hsl, hsr⟩, hbound⟩
      rw [hlb] at hbound ⊢
      exact hbound true

/-- Main rearrangement invariant: on a subtree that was properly labeled
when `_rearrange_node` reached it, the pass preserves the stored root label
and the node kind, keeps every stored operation label an upper bound of its
fresh label, and never increases the fresh label under either flag. -/
theorem rearrange_node_main (t : LTree) : ∀ f : Bool, proper f t → ∀ nid : Nat,
    (rearrange_node t nid).1.label = t.label ∧
    (rearrange_node t nid).1.isVar = t.isVar ∧
    SGF (rearrange_node t nid).1 ∧
    ∀ g : Bool, fresh g (rearrange_node t nid).1 ≤ fresh g t := by
  induction t with
  | var i v lb =>
    intro f h nid
    exact ⟨rfl, rfl, trivial, fun g => le_refl _⟩
  | op i s l r lb ihl ihr =>
    intro f h nid
    rw [proper_op_iff] at h
    obtain ⟨hl, hr, hlb⟩ := h
    obtain ⟨ihl1, ihl2, ihl3, ihl4⟩ := ihl true hl nid
    obtain ⟨ihr1, ihr2, ihr3, ihr4⟩ := ihr false hr (rearrange_node l nid).2
    have hLe : l.label = fresh true l := proper_label hl
    have hRe : r.label = fresh false r := proper_label hr
    have hunfold : rearrange_node (.op i s l r lb) nid =
        rearrange_op i s lb (rearrange_node l nid).1
          (rearrange_node r (rearrange_node l nid).2).1
          (rearrange_node r (rearrange_node l nid).2).2 := rfl
    rw [hunfold]
    have q3 : (rearrange_node l nid).1.isVar = false →
        fresh false (rearrange_node l nid).1 ≤ fresh true l := by
      intro hv
      rw [fresh_flag false true hv]
      exact ihl4 true
    have q4 : (rearrange_node r (rearrange_node l nid).2).1.isVar = false →
        fresh true (rearrange_node r (rearrange_node l nid).2).1 ≤ fresh false r := by
      intro hv
      rw [fresh_flag true false hv]
      exact ihr4 false
    have q5 : (rearrange_node r (rearrange_node l nid).2).1.isVar = true →
        fresh false r = 0 := by
      intro hv
      rw [ihr2] at hv
      cases r with
      | var => rfl
      | op => simp [LTree.isVar] at hv
    obtain ⟨m1, m2, m3, m4⟩ := rearrange_op_spec i s lb (rearrange_node l nid).1
      (rearrange_node r (rearrange_node l nid).2).1
      (rearrange_node r (rearrange_node l nid).2).2
      (fresh true l) (fresh false r)
      (by rw [ihl1, hLe]) (by rw [ihr1, hRe]) ihl3 ihr3
      (ihl4 true) (ihr4 false) q3 q4 q5 (one_le_fresh_true l) hlb
    refine ⟨by rw [m1]; rfl, by rw [m2]; rfl, m3, fun g => ?_⟩
    rw [fresh_op]
    exact m4 g

/-- The root label freshly computed after rearrangement never exceeds the
root label freshly computed before it. -/
theorem rearrange_node_fresh_le (t : LTree) (h : proper true t) (nid : Nat) :
    fresh true (rearrange_node t nid).1 ≤ fresh true t :=
  (rearrange_node_main t true h nid).2.2.2 true

/-! ## Peak live registers of the allocation-step trace -/

/-- The set of register names currently held in the register map. -/
def valSet (m : List (Nat × String)) : Finset String := (m.map Prod.snd).toFinset

theorem liveCount_eq_card (m : List (Nat × String)) : liveCount m = (valSet m).card := rfl

theorem valSet_dinsert (k : Nat) (v : String) (m : List (Nat × String)) :
    valSet (dinsert k v m) ⊆ insert v (valSet m) := by
  unfold dinsert
  split_ifs with h
  · intro x hx
    simp only [valSet, List.mem_toFinset, List.mem_map] at hx
    obtain ⟨p, hp, hpx⟩ := hx
    obtain ⟨q, hq, hqp⟩ := hp
    by_cases hk : q.1 = k
    · rw [if_pos hk] at hqp
      simp [Finset.mem_insert, ← hqp, ← hpx]
    · rw [if_neg hk] at hqp
      subst hqp
      simp only [Finset.mem_insert, valSet, List.mem_toFinset, List.mem_map]
      exact Or.inr ⟨q, hq, hpx⟩
  · intro x hx
    simp only [valSet, List.mem_toFinset, List.mem_map, List.mem_append] at hx
    obtain ⟨p, hp | hp, hpx⟩ := hx
    · simp only [Finset.mem_insert, valSet, List.mem_toFinset, List.mem_map]
      exact Or.inr ⟨p, hp, hpx⟩
    · simp only [List.mem_singleton] at hp
      subst hp
      simp [Finset.mem_insert, ← hpx]

theorem mem_valSet_dinsert (k : Nat) (v : String) (m : List (Nat × String)) :
    v ∈ valSet (dinsert k v m) := by
  unfold dinsert
  split_ifs with h
  · obtain ⟨p, hp, hpk⟩ := List.any_eq_true.mp h
    simp only [decide_eq_true_eq] at hpk
    simp only [valSet, List.mem_toFinset, List.mem_map]
    exact ⟨(k, v), ⟨p, hp,
      show (if p.1 = k then (k, v) else p) = (k, v) by rw [if_pos hpk]⟩, rfl⟩
  · simp [valSet]

theorem valSet_filter_ne (m : List (Nat × String)) (rr : String) :
    valSet (m.filter (fun p => p.2 ≠ rr)) ⊆ (valSet m).erase rr := by
  intro x hx
  simp only [valSet, List.mem_toFinset, List.mem_map, List.mem_filter,
    decide_eq_true_eq] at hx
  obtain ⟨p, ⟨hp, hne⟩, hpx⟩ := hx
  rw [Finset.mem_erase]
  exact ⟨hpx ▸ hne, by
    simp only [valSet, List.mem_toFinset, List.mem_map]
    exact ⟨p, hp, hpx⟩⟩

/-- Register-map invariant of `_generate_allocation_steps`: the run on a
subtree adds only its own result register to the set of live register
names, and its result is live afterwards. -/
theorem gen_steps_valSet (t : LTree) : ∀ rm : List (Nat × String),
    valSet (generate_allocation_steps t rm).2.2 ⊆
      insert (generate_allocation_steps t rm).1 (valSet rm) ∧
    (generate_allocation_steps t rm).1 ∈ valSet (generate_allocation_steps t rm).2.2 := by
  induction t with
  | var i v lb =>
    intro rm
    exact ⟨valSet_dinsert _ _ _, mem_valSet_dinsert _ _ _⟩
  | op i s l r lb ihl ihr =>
    intro rm
    simp only [generate_allocation_steps]
    split_ifs with hord
    · obtain ⟨ha1, hb1⟩ := ihr rm
      obtain ⟨ha2, hb2⟩ := ihl (generate_allocation_steps r rm).2.2
      constructor
      · simp only [finishStep]
        intro x hx
        have hx1 := valSet_dinsert _ _ _ hx
        rw [Finset.mem_insert] at hx1
        rcases hx1 with hx1 | hx1
        · simp [hx1]
        · have hx2 := valSet_filter_ne _ _ hx1
          rw [Finset.mem_erase] at hx2
          obtain ⟨hne, hx3⟩ := hx2
          have hx4 := ha2 hx3
          rw [Finset.mem_insert] at hx4
          rcases hx4 with hx4 | hx4
          · simp [hx4]
          · have hx5 := ha1 hx4
            rw [Finset.mem_insert] at hx5
            rcases hx5 with hx5 | hx5
            · exact absurd hx5 hne
            · simp [hx5]
      · simp only [finishStep]
        exact mem_valSet_dinsert _ _ _
    · obtain ⟨ha1, hb1⟩ := ihl rm
      obtain ⟨ha2, hb2⟩ := ihr (generate_allocation_steps l rm).2.2
      constructor
      · simp only [finishStep]
        intro x hx
        have hx1 := valSet_dinsert _ _ _ hx
        rw [Finset.mem_insert] at hx1
        rcases hx1 with hx1 | hx1
        · simp [hx1]
        · have hx2 := valSet_filter_ne _ _ hx1
          rw [Finset.mem_erase] at hx2
          obtain ⟨hne, hx3⟩ := hx2
          have hx4 := ha2 hx3
          rw [Finset.mem_insert] at hx4
          rcases hx4 with hx4 | hx4
          · exact absurd hx4 hne
          · have hx5 := ha1 hx4
            rw [Finset.mem_insert] at hx5
            rcases hx5 with hx5 | hx5
            · simp [hx5]
            · simp [hx5]
      · simp only [finishStep]
        exact mem_valSet_dinsert _ _ _

/-- The live count grows by at most one over a subtree's evaluation. -/
theorem liveCount_gen_le (t : LTree) (rm : List (Nat × String)) :
    liveCount (generate_allocation_steps t rm).2.2 ≤ liveCount rm + 1 := by
  rw [liveCount_eq_card, liveCount_eq_card]
  calc (valSet (generate_allocation_steps t rm).2.2).card
      ≤ (insert (generate_allocation_steps t rm).1 (valSet rm)).card :=
        Finset.card_le_card (gen_steps_valSet t rm).1
  _ ≤ (valSet rm).card + 1 := Finset.card_insert_le _ _

/-- The evaluation order `_generate_allocation_steps` uses, as a register
requirement (specification-side): a variable needs one register; a binary
node evaluates the higher-labeled child first and keeps its result live
while the other child runs. -/
def stepNeed : LTree → Nat
  | .var _ _ _ => 1
  | .op _ _ l r _ =>
    if l.label < r.label then max (stepNeed r) (stepNeed l + 1)
    else max (stepNeed l) (stepNeed r + 1)

/-- The final live count of a run is bounded by its peak. -/
theorem liveCount_final_le_peak (t : LTree) (rm : List (Nat × String)) :
    liveCount (generate_allocation_steps t rm).2.2 ≤ livePeak t rm := by
  cases t with
  | var i v lb => exact le_of_eq rfl
  | op i s l r lb =>
    simp only [generate_allocation_steps, livePeak]
    split_ifs with hord
    · simp only [finishStep]
      exact le_max_right _ _
    · simp only [finishStep]
      exact le_max_right _ _

/-- After a combine whose surviving register is already live, the live
count does not grow. -/
theorem liveCount_combine_left (i : Nat) (A C : String) (B : List (Nat × String))
    (hA : A ∈ valSet B) :
    liveCount (dinsert i A (B.filter (fun p => p.2 ≠ C))) ≤ liveCount B := by
  rw [liveCount_eq_card, liveCount_eq_card]
  apply Finset.card_le_card
  intro x hx
  have hx1 := valSet_dinsert _ _ _ hx
  rw [Finset.mem_insert] at hx1
  rcases hx1 with hx1 | hx1
  · rw [hx1]; exact hA
  · exact Finset.mem_of_mem_erase (valSet_filter_ne _ _ hx1)

/-- After a combine that frees a currently live register, the live count
does not grow either (the freed name pays for the inserted one). -/
theorem liveCount_combine_right (i : Nat) (A C : String) (B : List (Nat × String))
    (hC : C ∈ valSet B) :
    liveCount (dinsert i A (B.filter (fun p => p.2 ≠ C))) ≤ liveCount B := by
  rw [liveCount_eq_card, liveCount_eq_card]
  have h1 : valSet (dinsert i A (B.filter (fun p => p.2 ≠ C))) ⊆
      insert A ((valSet B).erase C) :=
    subset_trans (valSet_dinsert _ _ _)
      (Finset.insert_subset_insert _ (valSet_filter_ne _ _))
  have h2 : 0 < (valSet B).card := Finset.card_pos.mpr ⟨C, hC⟩
  calc (valSet (dinsert i A (B.filter (fun p => p.2 ≠ C)))).card
      ≤ (insert A ((valSet B).erase C)).card := Finset.card_le_card h1
  _ ≤ ((valSet B).erase C).card + 1 := Finset.card_insert_le _ _
  _ = (valSet B).card - 1 + 1 := by rw [Finset.card_erase_of_mem hC]
  _ ≤ (valSet B).card := by omega

theorem livePeak_le (t : LTree) : ∀ rm : List (Nat × String),
    livePeak t rm ≤ liveCount rm + stepNeed t := by
  induction t with
  | var i v lb =>
    intro rm
    simp only [livePeak, stepNeed]
    rw [liveCount_eq_card, liveCount_eq_card]
    calc (valSet (dinsert i ("R" ++ toString (rm.length + 1)) rm)).card
        ≤ (insert ("R" ++ toString (rm.length + 1)) (valSet rm)).card :=
          Finset.card_le_card (valSet_dinsert _ _ _)
    _ ≤ (valSet rm).card + 1 := Finset.card_insert_le _ _
  | op i s l r lb ihl ihr =>
    intro rm
    simp only [livePeak, stepNeed]
    split_ifs with hord
    · -- right child first: the inserted register is the second (left)
      -- evaluation's own result, live in its final map
      have h1 := ihr rm
      have h2 := ihl (generate_allocation_steps r rm).2.2
      have h3 := liveCount_gen_le r rm
      have h4 := liveCount_combine_left i
        (generate_allocation_steps l (generate_allocation_steps r rm).2.2).1
        (generate_allocation_steps r rm).1
        (generate_allocation_steps l (generate_allocation_steps r rm).2.2).2.2
        (gen_steps_valSet l _).2
      have h5 := liveCount_final_le_peak l (generate_allocation_steps r rm).2.2
      apply max_le
      · apply max_le
        · exact le_trans h1 (by
            have := le_max_left (stepNeed r) (stepNeed l + 1); omega)
        · exact le_trans h2 (by
            have := le_max_right (stepNeed r) (stepNeed l + 1); omega)
      · refine le_trans h4 (le_trans h5 (le_trans h2 ?_))
        have := le_max_right (stepNeed r) (stepNeed l + 1); omega
    · -- left child first: the freed register is the second (right)
      -- evaluation's own result, live in its final map
      have h1 := ihl rm
      have h2 := ihr (generate_allocation_steps l rm).2.2
      have h3 := liveCount_gen_le l rm
      have h4 := liveCount_combine_right i
        (generate_allocation_steps l rm).1
        (generate_allocation_steps r (generate_allocation_steps l rm).2.2).1
        (generate_allocation_steps r (generate_allocation_steps l rm).2.2).2.2
        (gen_steps_valSet r _).2
      have h5 := liveCount_final_le_peak r (generate_allocation_steps l rm).2.2
      apply max_le
      · apply max_le
        · exact le_trans h1 (by
            have := le_max_left (stepNeed l) (stepNeed r + 1); omega)
        · exact le_trans h2 (by
            have := le_max_right (stepNeed l) (stepNeed r + 1); omega)
      · refine le_trans h4 (le_trans h5 (le_trans h2 ?_))
        have := le_max_right (stepNeed l) (stepNeed r + 1); omega

/-- The evaluation-order register requirement is at most one more than the
Sethi–Ullman label, on properly labeled trees. -/
theorem stepNeed_le_label (t : LTree) : ∀ f : Bool, proper f t →
    stepNeed t ≤ t.label + 1 := by
  induction t with
  | var i v lb =>
    intro f h
    simp only [stepNeed, LTree.label]
    omega
  | op i s l r lb ihl ihr =>
    intro f h
    rw [proper_op_iff] at h
    obtain ⟨hl, hr, hlb⟩ := h
    have h1 := ihl true hl
    have h2 := ihr false hr
    have hLe : l.label = fresh true l := proper_label hl
    have hRe : r.label = fresh false r := proper_label hr
    have hlb' : lb = suComb l.label r.label := by rw [hLe, hRe]; exact hlb
    have hopl : (LTree.op i s l r lb).label = lb := rfl
    rw [hopl]
    simp only [stepNeed]
    split_ifs with hord
    · -- right first: labels satisfy l.label < r.label
      apply max_le
      · have : r.label ≤ suComb l.label r.label := suComb_ge_right _ _
        omega
      · have : r.label ≤ suComb l.label r.label := suComb_ge_right _ _
        omega
    · -- left first: r.label ≤ l.label
      have hba : r.label ≤ l.label := by omega
      apply max_le
      · have : l.label ≤ suComb l.label r.label := suComb_ge_left _ _
        omega
      · rcases eq_or_ne l.label r.label with heq | hne
        · have : suComb l.label r.label = l.label + 1 := by rw [suComb, if_pos heq]
          omega
        · have : suComb l.label r.label = max l.label r.label := by rw [suComb, if_neg hne]
          have hm : max l.label r.label = l.label := max_eq_left hba
          omega

/-- Peak live registers over a full run from the empty register map:
at most the root's label plus one. -/
theorem livePeak_root (t : LTree) (f : Bool) (h : proper f t) :
    livePeak t [] ≤ t.label + 1 := by
  have h1 := livePeak_le t []
  have h2 := stepNeed_le_label t f h
  have h3 : liveCount ([] : List (Nat × String)) = 0 := rfl
  omega

/-! ## Rearrangement on non-commutative operators -/

/-- Every operation symbol of the tree lies in `S`. -/
def opsIn (S : List String) : LTree → Prop
  | .var _ _ _ => True
  | .op _ s l r _ => s ∈ S ∧ opsIn S l ∧ opsIn S r

/-- On a tree whose operators are all `-` or `/`, `_rearrange_node` is the
identity: neither the commutativity swap nor the associativity regroup is
guarded on, and no candidate node is created (the id counter is unchanged). -/
theorem rearrange_node_nonComm (t : LTree) (h : opsIn ["-", "/"] t) (nid : Nat) :
    rearrange_node t nid = (t, nid) := by
  induction t generalizing nid with
  | var i v lb => rfl
  | op i s l r lb ihl ihr =>
    obtain ⟨hs, hl, hr⟩ := h
    have hnpt : s ∉ plusTimes := by
      simp only [List.mem_cons, List.mem_singleton] at hs
      rcases hs with hs | hs | hs
      · rw [hs]; decide
      · rw [hs]; decide
      · exact absurd hs (by simp)
    have hu : rearrange_node (.op i s l r lb) nid =
        rearrange_op i s lb (rearrange_node l nid).1
          (rearrange_node r (rearrange_node l nid).2).1
          (rearrange_node r (rearrange_node l nid).2).2 := rfl
    rw [hu, ihl hl, ihr hr]
    cases l with
    | var ia va lba =>
      simp only [rearrange_op]
      rw [if_neg (by intro hc; exact hnpt hc.1)]
    | op ia sa la ra lba =>
      simp only [rearrange_op]
      rw [if_neg (by intro hc; exact hnpt hc.1), if_neg (by intro hc; exact hnpt hc.1)]

/-- The bare expression shape: node ids and labels erased. -/
inductive ETree where
  | evar (v : String)
  | eop (s : String) (l r : ETree)
deriving Repr, DecidableEq

def eraseT : LTree → ETree
  | .var _ v _ => .evar v
  | .op _ s l r _ => .eop s (eraseT l) (eraseT r)

theorem eraseT_assign_label (f : Bool) (t : LTree) :
    eraseT (assign_label f t) = eraseT t := by
  induction t generalizing f with
  | var i v lb => rfl
  | op i s l r lb ihl ihr =>
    simp only [assign_label, eraseT]
    rw [ihl true, ihr false]

theorem opsIn_assign_label (S : List String) (f : Bool) (t : LTree)
    (h : opsIn S t) : opsIn S (assign_label f t) := by
  induction t generalizing f with
  | var i v lb => trivial
  | op i s l r lb ihl ihr =>
    obtain ⟨hs, hl, hr⟩ := h
    exact ⟨hs, ihl true hl, ihr false hr⟩

/-- At a single `-`/`/` node with arbitrary (already-rearranged) children,
the rearrangement step is the identity on the node: the children stay in
order, no candidate is created, no id is consumed. -/
theorem rearrange_op_keep (i : Nat) (s : String) (lb : Nat) (l' r' : LTree)
    (nid2 : Nat) (hs : s ∈ ["-", "/"]) :
    rearrange_op i s lb l' r' nid2 = (.op i s l' r' lb, nid2) := by
  have hnpt : s ∉ plusTimes := by
    simp only [List.mem_cons, List.mem_singleton] at hs
    rcases hs with hs | hs | hs
    · rw [hs]; decide
    · rw [hs]; decide
    · exact absurd hs (by simp)
  cases l' with
  | var ia va lba =>
    simp only [rearrange_op]
    rw [if_neg (by intro hc; exact hnpt hc.1)]
  | op ia sa la ra lba =>
    simp only [rearrange_op]
    rw [if_neg (by intro hc; exact hnpt hc.1), if_neg (by intro hc; exact hnpt hc.1)]

/-- In any tree (mixed operators included), a binary node whose operator is
`-` or `/` keeps its recursively-rearranged children in their original
order: no swap, no regroup, no id consumed at this node. -/
theorem rearrange_node_keep (i : Nat) (s : String) (l r : LTree) (lb nid : Nat)
    (hs : s ∈ ["-", "/"]) :
    rearrange_node (.op i s l r lb) nid =
      (.op i s (rearrange_node l nid).1
        (rearrange_node r (rearrange_node l nid).2).1 lb,
       (rearrange_node r (rearrange_node l nid).2).2) := by
  have hu : rearrange_node (.op i s l r lb) nid =
      rearrange_op i s lb (rearrange_node l nid).1
        (rearrange_node r (rearrange_node l nid).2).1
        (rearrange_node r (rearrange_node l nid).2).2 := rfl
  rw [hu, rearrange_op_keep _ _ _ _ _ _ hs]

/-! ## Specification-side three-address code: post-order emission

The refinement target for the code generator: a post-order walk in which
the `j`-th operation node (in post-order) is bound to temporary
`t(k + j)`, `k` being the first free temporary index. -/

def opCount : LTree → Nat
  | .var _ _ _ => 0
  | .op _ _ l r _ => opCount l + opCount r + 1

def spec_result : LTree → Nat → String
  | .var _ v _, _ => v
  | .op _ _ l r _, k => "t" ++ toString (k + opCount l + opCount r)

def spec_code : LTree → Nat → List String
  | .var _ _ _, _ => []
  | .op _ s l r _, k =>
    spec_code l k ++ spec_code r (k + opCount l) ++
      ["t" ++ toString (k + opCount l + opCount r) ++ " = " ++
        spec_result l k ++ " " ++ s ++ " " ++ spec_result r (k + opCount l)]

/-! ## Well-formed expressions and parser success

The grammar of well-formed expression strings implicit in §4.1 of the
specification: a nonempty token of alphanumeric/underscore characters, a
fully parenthesized well-formed string, or two well-formed strings joined
by an operator character. -/

theorem cntL_append (a b : List Char) : cntL (a ++ b) = cntL a + cntL b := by
  induction a with
  | nil => simp [cntL]
  | cons c cs ih => simp [cntL, ih]; omega

theorem cntR_append (a b : List Char) : cntR (a ++ b) = cntR a + cntR b := by
  induction a with
  | nil => simp [cntR]
  | cons c cs ih => simp [cntR, ih]; omega

inductive WFE : List Char → Prop
  | tok (cs : List Char) (h1 : cs ≠ []) (h2 : ∀ c ∈ cs, isTokChar c) : WFE cs
  | wrap (cs : List Char) (h : WFE cs) : WFE ('(' :: cs ++ [')'])
  | bin (l r : List Char) (c : Char) (hl : WFE l) (hr : WFE r)
      (hc : c ∈ opChars) : WFE (l ++ c :: r)

theorem tokChar_ne (c : Char) (h : isTokChar c = true) :
    c ≠ '(' ∧ c ≠ ')' ∧ c ∉ opChars := by
  refine ⟨?_, ?_, ?_⟩
  · intro hc; subst hc; exact absurd h (by decide)
  · intro hc; subst hc; exact absurd h (by decide)
  · intro hc
    fin_cases hc <;> exact absurd h (by decide)

theorem opChar_ne (c : Char) (h : c ∈ opChars) : c ≠ '(' ∧ c ≠ ')' := by
  fin_cases h <;> exact ⟨by decide, by decide⟩

theorem getLast?_concatC (t : List Char) (x : Char) : (t ++ [x]).getLast? = some x := by
  rw [List.getLast?_append_of_ne_nil t (by simp)]
  rfl

theorem mem_of_getLast?C {l : List Char} {x : Char} (h : x ∈ l.getLast?) : x ∈ l := by
  obtain ⟨hne, hx⟩ := List.mem_getLast?_eq_getLast h
  exact hx ▸ List.getLast_mem hne

theorem cntL_cons (c : Char) (t : List Char) :
    cntL (c :: t) = (if c = '(' then 1 else 0) + cntL t := rfl

theorem cntR_cons (c : Char) (t : List Char) :
    cntR (c :: t) = (if c = ')' then 1 else 0) + cntR t := rfl

theorem cntL_rp_nil : cntL [')'] = 0 := rfl

theorem cntR_rp_nil : cntR [')'] = 1 := rfl

/-- Every suffix has at least as many `)` as `(`. -/
def SufBal (cs : List Char) : Prop :=
  ∀ p q : List Char, cs = p ++ q → cntL q ≤ cntR q

theorem cnt_of_tok {cs : List Char} (h : ∀ c ∈ cs, isTokChar c) :
    cntL cs = 0 ∧ cntR cs = 0 := by
  induction cs with
  | nil => exact ⟨rfl, rfl⟩
  | cons c cs ih =>
    obtain ⟨h1, h2, _⟩ := tokChar_ne c (h c (List.mem_cons_self c cs))
    obtain ⟨ihl, ihr⟩ := ih (fun x hx => h x (List.mem_cons_of_mem c hx))
    simp [cntL, cntR, h1, h2, ihl, ihr]

/-- The two halves of an append that ends in a single element. -/
theorem append_concat_split {t p q : List Char} {x : Char}
    (h : t ++ [x] = p ++ q) (hq : q ≠ []) :
    ∃ q', q = q' ++ [x] ∧ t = p ++ q' := by
  rcases List.append_eq_append_iff.mp h with ⟨a', ha1, ha2⟩ | ⟨c', hc1, hc2⟩
  · -- [x] = a' ++ q with q ≠ [] forces a' = [] and q = [x]
    cases a' with
    | nil =>
      simp only [List.nil_append] at ha2
      exact ⟨[], by simp [← ha2], by simp [ha1]⟩
    | cons b bs =>
      simp only [List.cons_append] at ha2
      obtain ⟨hb, hrest⟩ := List.cons.inj ha2
      exact absurd (List.append_eq_nil.mp hrest.symm).2 hq
  · -- t = p ++ c' and q = c' ++ [x]
    exact ⟨c', hc2, hc1⟩

/-- Any occurrence of an element inside an append splits into one of three
positions. -/
theorem append_cons_trichotomy {l r p q : List Char} {c : Char}
    (h : p ++ q = l ++ c :: r) :
    (∃ m, p = l ++ c :: m ∧ r = m ++ q) ∨ (p = l ∧ q = c :: r) ∨
      (∃ m, l = p ++ m ∧ q = m ++ c :: r) := by
  rcases List.append_eq_append_iff.mp h with ⟨a', ha1, ha2⟩ | ⟨c', hc1, hc2⟩
  · exact Or.inr (Or.inr ⟨a', ha1, ha2⟩)
  · cases c' with
    | nil =>
      simp only [List.append_nil] at hc1
      simp only [List.nil_append] at hc2
      exact Or.inr (Or.inl ⟨hc1, hc2.symm⟩)
    | cons b bs =>
      obtain ⟨hb, hbs⟩ := List.cons.inj hc2
      subst hb
      exact Or.inl ⟨bs, by rw [hc1, List.append_cons], hbs⟩

theorem WFE_counts {cs : List Char} (h : WFE cs) : cntL cs = cntR cs := by
  induction h with
  | tok cs h1 h2 => obtain ⟨hl, hr⟩ := cnt_of_tok h2; rw [hl, hr]
  | wrap cs h ih =>
    rw [cntL_append, cntR_append, cntL_cons, cntR_cons, cntL_rp_nil, cntR_rp_nil,
      if_pos rfl, if_neg (by decide : ¬('(' = ')'))]
    omega
  | bin l r c hl hr hc ihl ihr =>
    obtain ⟨h1, h2⟩ := opChar_ne c hc
    rw [cntL_append, cntR_append, cntL_cons, cntR_cons, if_neg h1, if_neg h2]
    omega

theorem WFE_sufbal {cs : List Char} (h : WFE cs) : SufBal cs := by
  induction h with
  | tok cs h1 h2 =>
    intro p q hpq
    have hsub : ∀ c ∈ q, isTokChar c := by
      intro c hc
      exact h2 c (hpq ▸ List.mem_append_right p hc)
    obtain ⟨hl, hr⟩ := cnt_of_tok hsub
    omega
  | wrap t ht ih =>
    intro p q hpq
    cases p with
    | nil =>
      simp only [List.nil_append] at hpq
      subst hpq
      have := WFE_counts (WFE.wrap t ht)
      omega
    | cons a p' =>
      simp only [List.cons_append, List.cons.injEq] at hpq
      obtain ⟨ha, hrest⟩ := hpq
      by_cases hq : q = []
      · subst hq; simp [cntL, cntR]
      · obtain ⟨q', hq1, hq2⟩ := append_concat_split hrest hq
        have hle : cntL q' ≤ cntR q' := ih p' q' hq2
        subst hq1
        rw [cntL_append, cntR_append, cntL_rp_nil, cntR_rp_nil]
        omega
  | bin l r c hl hr hc ihl ihr =>
    intro p q hpq
    obtain ⟨hc1, hc2⟩ := opChar_ne c hc
    rcases append_cons_trichotomy hpq.symm with ⟨m, hm1, hm2⟩ | ⟨hp, hq⟩ |
      ⟨m, hm1, hm2⟩
    · exact ihr m q hm2
    · subst hq
      have := WFE_counts hr
      rw [cntL_cons, cntR_cons, if_neg hc1, if_neg hc2]
      omega
    · subst hm2
      have h1 : cntL m ≤ cntR m := ihl p m hm1
      have h2 := WFE_counts hr
      rw [cntL_append, cntR_append, cntL_cons, cntR_cons, if_neg hc1, if_neg hc2]
      omega

theorem WFE_ne_nil {cs : List Char} (h : WFE cs) : cs ≠ [] := by
  induction h with
  | tok cs h1 h2 => exact h1
  | wrap cs h ih => simp
  | bin l r c hl hr hc ihl ihr =>
    intro hx
    exact ihl (List.append_eq_nil.mp hx).1

theorem WFE_head_not_op {cs : List Char} (h : WFE cs) :
    ∀ c ∈ cs.head?, c ∉ opChars := by
  induction h with
  | tok cs h1 h2 =>
    intro c hc
    have : c ∈ cs := by
      cases cs with
      | nil => simp at hc
      | cons a as => simp at hc; simp [hc]
    exact (tokChar_ne c (h2 c this)).2.2
  | wrap cs h ih =>
    intro c hc
    simp only [List.cons_append, List.head?_cons, Option.mem_def,
      Option.some.injEq] at hc
    subst hc
    decide
  | bin l r c hl hr hc ihl ihr =>
    intro c' hc'
    cases l with
    | nil => exact absurd rfl (WFE_ne_nil hl)
    | cons a as =>
      simp only [List.cons_append, List.head?_cons, Option.mem_def,
        Option.some.injEq] at hc'
      exact hc' ▸ ihl a (by simp)

theorem WFE_last_not_op {cs : List Char} (h : WFE cs) :
    ∀ c ∈ cs.getLast?, c ∉ opChars := by
  induction h with
  | tok cs h1 h2 =>
    intro c hc
    exact (tokChar_ne c (h2 c (mem_of_getLast?C hc))).2.2
  | wrap cs h ih =>
    intro c hc
    have he : ('(' :: cs ++ [')']).getLast? = some ')' := getLast?_concatC ('(' :: cs) ')'
    rw [he] at hc
    simp only [Option.mem_def, Option.some.injEq] at hc
    subst hc
    decide
  | bin l r c hl hr hc ihl ihr =>
    intro c' hc'
    have hrne := WFE_ne_nil hr
    have he : (l ++ c :: r).getLast? = r.getLast? := by
      rw [List.getLast?_append_of_ne_nil l (by simp)]
      cases r with
      | nil => exact absurd rfl hrne
      | cons x r' => exact List.getLast?_cons_cons
    rw [he] at hc'
    exact ihr c' hc'

/-- Splitting a well-formed string at any operator occurrence whose suffix
is parenthesis-balanced yields two well-formed halves. -/
theorem WFE_split {cs : List Char} (h : WFE cs) :
    ∀ l r : List Char, ∀ c : Char, cs = l ++ c :: r → c ∈ opChars →
      cntL r = cntR r → WFE l ∧ WFE r := by
  induction h with
  | tok cs h1 h2 =>
    intro l r c hcs hc _
    have : c ∈ cs := hcs ▸ List.mem_append_right l (List.mem_cons_self c r)
    exact absurd hc (tokChar_ne c (h2 c this)).2.2
  | wrap t ht ih =>
    intro l r c hcs hc hcnt
    obtain ⟨hop1, hop2⟩ := opChar_ne c hc
    cases l with
    | nil =>
      simp only [List.nil_append, List.cons_append, List.cons.injEq] at hcs
      exact absurd hcs.1.symm hop1
    | cons a l' =>
      simp only [List.cons_append, List.cons.injEq] at hcs
      obtain ⟨ha, hrest⟩ := hcs
      by_cases hr : r = []
      · -- the operator would be the final `)`
        subst hr
        have h1 : (t ++ [')']).getLast? = some ')' := getLast?_concatC t ')'
        have h2 : t ++ [')'] = l' ++ [c] := hrest
        rw [h2, getLast?_concatC] at h1
        exact absurd (Option.some.inj h1) hop2
      · have h2 : t ++ [')'] = (l' ++ [c]) ++ r := by
          rw [hrest, List.append_cons]
        obtain ⟨r', hr1, hr2⟩ := append_concat_split h2 hr
        -- r = r' ++ [')'] and t = (l' ++ [c]) ++ r'
        have hsb := WFE_sufbal ht (l' ++ [c]) r' hr2
        subst hr1
        rw [cntL_append, cntR_append, cntL_rp_nil, cntR_rp_nil] at hcnt
        omega
  | bin l0 r0 c0 hl0 hr0 hc0 ihl ihr =>
    intro l r c hcs hc hcnt
    obtain ⟨hop1, hop2⟩ := opChar_ne c hc
    obtain ⟨h01, h02⟩ := opChar_ne c0 hc0
    rcases append_cons_trichotomy hcs.symm with ⟨m, hm1, hm2⟩ | ⟨hp, hq⟩ |
      ⟨m, hm1, hm2⟩
    · -- c lies inside r0 : r0 = m ++ c :: r (from hm2 : r0 = m ++ (c :: r))
      obtain ⟨hwm, hwr⟩ := ihr m r c hm2 hc hcnt
      exact ⟨hm1 ▸ WFE.bin l0 m c0 hl0 hwm hc0, hwr⟩
    · obtain ⟨hcc, hrr⟩ := List.cons.inj hq
      subst hcc
      exact ⟨hp ▸ hl0, hrr ▸ hr0⟩
    · cases m with
      | nil =>
        simp only [List.append_nil] at hm1
        simp only [List.nil_append] at hm2
        obtain ⟨hcc, hrr⟩ := List.cons.inj hm2
        subst hcc
        exact ⟨hm1 ▸ hl0, hrr ▸ hr0⟩
      | cons b m' =>
        obtain ⟨hb, hm'⟩ := List.cons.inj hm2
        subst hb
        -- l0 = l ++ c :: m', r = m' ++ c0 :: r0
        have hm'' : r = m' ++ c0 :: r0 := hm'
        have hcm' : cntL m' = cntR m' := by
          subst hm''
          have h2 := WFE_counts hr0
          rw [cntL_append, cntR_append, cntL_cons, cntR_cons, if_neg h01,
            if_neg h02] at hcnt
          omega
        obtain ⟨hwl, hwm⟩ := ihl l m' c hm1 hc hcm'
        refine ⟨hwl, ?_⟩
        rw [hm'']
        exact WFE.bin m' r0 c0 hwm hr0 hc0

/-- No occurrence of an operator from `ops` at parenthesis depth 0 (depth
measured by the balancedness of the suffix). -/
def NoSplit (ops : List Char) (cs : List Char) : Prop :=
  ∀ l r : List Char, ∀ c : Char, cs = l ++ c :: r → c ∈ ops → cntL r ≠ cntR r

theorem findSplitGo_sound (ops : List Char) : ∀ (rcs : List Char) (lvl : Nat)
    (acc : List Char), lvl + cntL acc = cntR acc →
    ∀ l r c, findSplitGo ops rcs lvl acc = .ok (some (l, c, r)) →
      rcs.reverse ++ acc = l ++ c :: r ∧ c ∈ ops ∧ cntL r = cntR r := by
  intro rcs
  induction rcs with
  | nil =>
    intro lvl acc hinv l r c h
    simp [findSplitGo] at h
  | cons c0 rest ih =>
    intro lvl acc hinv l r c h
    rw [List.reverse_cons, List.append_assoc, List.singleton_append]
    simp only [findSplitGo] at h
    by_cases h1 : c0 = ')'
    · rw [if_pos h1] at h
      subst h1
      refine ih (lvl + 1) (')' :: acc) ?_ l r c h
      rw [cntL_cons, cntR_cons, if_neg (by decide : ¬(')' = '(')), if_pos rfl]
      omega
    · rw [if_neg h1] at h
      by_cases h2 : c0 = '('
      · rw [if_pos h2] at h
        by_cases h3 : lvl = 0
        · rw [if_pos h3] at h
          exact absurd h (by simp)
        · rw [if_neg h3] at h
          subst h2
          refine ih (lvl - 1) ('(' :: acc) ?_ l r c h
          rw [cntL_cons, cntR_cons, if_pos rfl, if_neg (by decide : ¬('(' = ')'))]
          omega
      · rw [if_neg h2] at h
        by_cases h4 : lvl = 0 ∧ c0 ∈ ops
        · rw [if_pos h4] at h
          simp only [Except.ok.injEq, Option.some.injEq, Prod.mk.injEq] at h
          obtain ⟨hl, hc, hr⟩ := h
          subst hl; subst hc; subst hr
          obtain ⟨hlvl, hcop⟩ := h4
          exact ⟨rfl, hcop, by omega⟩
        · rw [if_neg h4] at h
          refine ih lvl (c0 :: acc) ?_ l r c h
          rw [cntL_cons, cntR_cons, if_neg h2, if_neg h1]
          omega

theorem findSplitGo_total (ops : List Char) : ∀ (rcs : List Char) (lvl : Nat)
    (acc : List Char), lvl + cntL acc = cntR acc →
    (∀ p q : List Char, rcs.reverse ++ acc = p ++ q → cntL q ≤ cntR q) →
    ∃ o, findSplitGo ops rcs lvl acc = .ok o := by
  intro rcs
  induction rcs with
  | nil =>
    intro lvl acc _ _
    exact ⟨none, rfl⟩
  | cons c0 rest ih =>
    intro lvl acc hinv hsb
    have hlist : (c0 :: rest).reverse ++ acc = rest.reverse ++ (c0 :: acc) := by
      rw [List.reverse_cons, List.append_assoc, List.singleton_append]
    simp only [findSplitGo]
    by_cases h1 : c0 = ')'
    · rw [if_pos h1]
      subst h1
      refine ih (lvl + 1) (')' :: acc) ?_ ?_
      · rw [cntL_cons, cntR_cons, if_neg (by decide : ¬(')' = '(')), if_pos rfl]
        omega
      · intro p q hpq
        exact hsb p q (by rw [hlist]; exact hpq)
    · rw [if_neg h1]
      by_cases h2 : c0 = '('
      · rw [if_pos h2]
        by_cases h3 : lvl = 0
        · -- would-be mismatched parenthesis: impossible under suffix balance
          subst h2
          have hq := hsb rest.reverse ('(' :: acc) hlist
          rw [cntL_cons, cntR_cons, if_pos rfl,
            if_neg (by decide : ¬('(' = ')'))] at hq
          omega
        · rw [if_neg h3]
          subst h2
          refine ih (lvl - 1) ('(' :: acc) ?_ ?_
          · rw [cntL_cons, cntR_cons, if_pos rfl, if_neg (by decide : ¬('(' = ')'))]
            omega
          · intro p q hpq
            exact hsb p q (by rw [hlist]; exact hpq)
      · rw [if_neg h2]
        by_cases h4 : lvl = 0 ∧ c0 ∈ ops
        · rw [if_pos h4]
          exact ⟨_, rfl⟩
        · rw [if_neg h4]
          refine ih lvl (c0 :: acc) ?_ ?_
          · rw [cntL_cons, cntR_cons, if_neg h2, if_neg h1]
            omega
          · intro p q hpq
            exact hsb p q (by rw [hlist]; exact hpq)

theorem findSplitGo_none (ops : List Char)
    (hops : ∀ c ∈ ops, c ≠ '(' ∧ c ≠ ')') : ∀ (rcs : List Char) (lvl : Nat)
    (acc : List Char), lvl + cntL acc = cntR acc → NoSplit ops acc →
    findSplitGo ops rcs lvl acc = .ok none → NoSplit ops (rcs.reverse ++ acc) := by
  intro rcs
  induction rcs with
  | nil =>
    intro lvl acc _ hns _
    simpa using hns
  | cons c0 rest ih =>
    intro lvl acc hinv hns h
    have hlist : (c0 :: rest).reverse ++ acc = rest.reverse ++ (c0 :: acc) := by
      rw [List.reverse_cons, List.append_assoc, List.singleton_append]
    rw [hlist]
    simp only [findSplitGo] at h
    by_cases h1 : c0 = ')'
    · rw [if_pos h1] at h
      subst h1
      refine ih (lvl + 1) (')' :: acc) ?_ ?_ h
      · rw [cntL_cons, cntR_cons, if_neg (by decide : ¬(')' = '(')), if_pos rfl]
        omega
      · intro l r c hdec hc
        cases l with
        | nil =>
          obtain ⟨hcc, _⟩ := List.cons.inj hdec
          exact absurd hcc.symm (hops c hc).2
        | cons a l' =>
          obtain ⟨_, hrest⟩ := List.cons.inj hdec
          exact hns l' r c hrest hc
    · rw [if_neg h1] at h
      by_cases h2 : c0 = '('
      · rw [if_pos h2] at h
        by_cases h3 : lvl = 0
        · rw [if_pos h3] at h
          exact absurd h (by simp)
        · rw [if_neg h3] at h
          subst h2
          refine ih (lvl - 1) ('(' :: acc) ?_ ?_ h
          · rw [cntL_cons, cntR_cons, if_pos rfl, if_neg (by decide : ¬('(' = ')'))]
            omega
          · intro l r c hdec hc
            cases l with
            | nil =>
              obtain ⟨hcc, _⟩ := List.cons.inj hdec
              exact absurd hcc.symm (hops c hc).1
            | cons a l' =>
              obtain ⟨_, hrest⟩ := List.cons.inj hdec
              exact hns l' r c hrest hc
      · rw [if_neg h2] at h
        by_cases h4 : lvl = 0 ∧ c0 ∈ ops
        · rw [if_pos h4] at h
          exact absurd h (by simp)
        · rw [if_neg h4] at h
          refine ih lvl (c0 :: acc) ?_ ?_ h
          · rw [cntL_cons, cntR_cons, if_neg h2, if_neg h1]
            omega
          · intro l r c hdec hc
            cases l with
            | nil =>
              obtain ⟨hcc, hrest⟩ := List.cons.inj hdec
              subst hcc
              subst hrest
              -- the operator sits here but the level is not 0
              intro hctr
              exact h4 ⟨by omega, hc⟩
            | cons a l' =>
              obtain ⟨_, hrest⟩ := List.cons.inj hdec
              exact hns l' r c hrest hc

theorem findSplit_sound {ops cs : List Char} {l r : List Char} {c : Char}
    (h : findSplit ops cs = .ok (some (l, c, r))) :
    cs = l ++ c :: r ∧ c ∈ ops ∧ cntL r = cntR r := by
  have h2 := findSplitGo_sound ops cs.reverse 0 [] (by simp [cntL, cntR]) l r c h
  rwa [List.reverse_reverse, List.append_nil] at h2

theorem findSplit_total (ops cs : List Char) (hsb : SufBal cs) :
    ∃ o, findSplit ops cs = .ok o := by
  refine findSplitGo_total ops cs.reverse 0 [] (by simp [cntL, cntR]) ?_
  intro p q hpq
  rw [List.reverse_reverse, List.append_nil] at hpq
  exact hsb p q hpq

theorem findSplit_none {ops cs : List Char}
    (hops : ∀ c ∈ ops, c ≠ '(' ∧ c ≠ ')')
    (h : findSplit ops cs = .ok none) : NoSplit ops cs := by
  have h2 := findSplitGo_none ops hops cs.reverse 0 [] (by simp [cntL, cntR])
    (by intro l r c hdec hc; exact absurd hdec (by cases l <;> simp)) h
  rwa [List.reverse_reverse, List.append_nil] at h2

/-- A well-formed string with no depth-0 operator is a token or one full
parenthesis wrap. -/
theorem WFE_no_depth0 {cs : List Char} (h : WFE cs)
    (hns : NoSplit opChars cs) :
    (∀ c ∈ cs, isTokChar c) ∨ ∃ t, cs = ('(' :: t) ++ [')'] ∧ WFE t := by
  cases h with
  | tok cs h1 h2 => exact Or.inl h2
  | wrap t ht => exact Or.inr ⟨t, rfl, ht⟩
  | bin l0 r0 c0 hl0 hr0 hc0 =>
    exact absurd (WFE_counts hr0) (hns l0 r0 c0 rfl hc0)

theorem wrapGo_concat : ∀ (t : List Char) (lvl : Nat),
    (∀ p q : List Char, t = p ++ q → cntR p < lvl + cntL p) →
    wrapGo (t ++ [')']) lvl = true := by
  intro t
  induction t with
  | nil =>
    intro lvl _
    rw [List.nil_append, wrapGo]
    rw [if_pos rfl, if_neg (by simp)]
    rfl
  | cons c0 t' ih =>
    intro lvl hp
    have h0 : cntR [c0] < lvl + cntL [c0] := hp [c0] t' rfl
    rw [List.cons_append, wrapGo]
    by_cases hc0 : c0 = ')'
    · rw [if_pos hc0]
      subst hc0
      rw [cntR_cons, cntL_cons, if_pos rfl, if_neg (by decide : ¬(')' = '('))] at h0
      simp only [cntR, cntL] at h0
      rw [if_neg (by
        rintro ⟨ha, _⟩
        omega)]
      refine ih (lvl - 1) ?_
      intro p q hpq
      have := hp (')' :: p) q (by rw [List.cons_append, hpq])
      rw [cntR_cons, cntL_cons, if_pos rfl, if_neg (by decide : ¬(')' = '('))] at this
      omega
    · rw [if_neg hc0]
      by_cases hc1 : c0 = '('
      · rw [if_pos hc1]
        subst hc1
        refine ih (lvl + 1) ?_
        intro p q hpq
        have := hp ('(' :: p) q (by rw [List.cons_append, hpq])
        rw [cntR_cons, cntL_cons, if_pos rfl, if_neg (by decide : ¬('(' = ')'))] at this
        omega
      · rw [if_neg hc1]
        refine ih lvl ?_
        intro p q hpq
        have := hp (c0 :: p) q (by rw [List.cons_append, hpq])
        rw [cntR_cons, cntL_cons, if_neg hc1, if_neg hc0] at this
        omega

theorem wrapOk_wrap (t : List Char) (hbal : cntL t = cntR t) (hsb : SufBal t) :
    wrapOk (('(' :: t) ++ [')']) = true := by
  unfold wrapOk
  rw [List.cons_append, wrapGo]
  rw [if_neg (by decide : ¬('(' = ')')), if_pos rfl]
  refine wrapGo_concat t (0 + 1) ?_
  intro p q hpq
  have h1 := hsb p q hpq
  have h2 : cntL p + cntL q = cntR p + cntR q := by
    rw [hpq, cntL_append, cntR_append] at hbal
    omega
  omega

/-- The parser succeeds on every well-formed expression string, for any
fuel exceeding the string's length. -/
theorem parse_expr_wf : ∀ (fuel : Nat) (cs : List Char), WFE cs →
    cs.length < fuel → ∀ nid : Nat,
    ∃ t nid', parse_expr ['+', '-'] ['*', '/'] fuel cs nid = .ok (t, nid') := by
  intro fuel
  induction fuel with
  | zero => intro cs _ h; omega
  | succ fuel ih =>
    intro cs hwf hlen nid
    have hne := WFE_ne_nil hwf
    have hsb := WFE_sufbal hwf
    have hcnt := WFE_counts hwf
    obtain ⟨o1, ho1⟩ := findSplit_total ['+', '-'] cs hsb
    simp only [parse_expr]
    rw [if_neg hne, ho1]
    cases o1 with
    | some triple =>
      obtain ⟨l, c, r⟩ := triple
      obtain ⟨hdec, hcops, hcr⟩ := findSplit_sound ho1
      simp only []
      have hcopsF : c ∈ opChars := by fin_cases hcops <;> simp [opChars]
      have hlne : l ≠ [] := by
        intro h0
        subst h0
        rw [List.nil_append] at hdec
        exact WFE_head_not_op hwf c (by rw [hdec]; rfl) hcopsF
      have hrne : r ≠ [] := by
        intro h0
        subst h0
        have hlast : cs.getLast? = some c := by
          rw [hdec]
          exact getLast?_concatC l c
        exact WFE_last_not_op hwf c hlast hcopsF
      rw [if_neg (by
        intro hor
        rcases hor with h0 | h0
        · exact hlne h0
        · exact hrne h0)]
      obtain ⟨hwl, hwr⟩ := WFE_split hwf l r c hdec hcopsF hcr
      have hlens : cs.length = l.length + r.length + 1 := by
        rw [hdec]
        simp
        omega
      obtain ⟨lt, nid1, hlt⟩ := ih l hwl (by omega) (nid + 1)
      rw [hlt]
      simp only []
      obtain ⟨rt, nid2, hrt⟩ := ih r hwr (by omega) nid1
      rw [hrt]
      exact ⟨_, _, rfl⟩
    | none =>
      simp only []
      obtain ⟨o2, ho2⟩ := findSplit_total ['*', '/'] cs hsb
      rw [ho2]
      cases o2 with
      | some triple =>
        obtain ⟨l, c, r⟩ := triple
        obtain ⟨hdec, hcops, hcr⟩ := findSplit_sound ho2
        simp only []
        have hcopsF : c ∈ opChars := by fin_cases hcops <;> simp [opChars]
        have hlne : l ≠ [] := by
          intro h0
          subst h0
          rw [List.nil_append] at hdec
          exact WFE_head_not_op hwf c (by rw [hdec]; rfl) hcopsF
        have hrne : r ≠ [] := by
          intro h0
          subst h0
          have hlast : cs.getLast? = some c := by
            rw [hdec]
            exact getLast?_concatC l c
          exact WFE_last_not_op hwf c hlast hcopsF
        rw [if_neg (by
          intro hor
          rcases hor with h0 | h0
          · exact hlne h0
          · exact hrne h0)]
        obtain ⟨hwl, hwr⟩ := WFE_split hwf l r c hdec hcopsF hcr
        have hlens : cs.length = l.length + r.length + 1 := by
          rw [hdec]
          simp
          omega
        obtain ⟨lt, nid1, hlt⟩ := ih l hwl (by omega) (nid + 1)
        rw [hlt]
        simp only []
        obtain ⟨rt, nid2, hrt⟩ := ih r hwr (by omega) nid1
        rw [hrt]
        exact ⟨_, _, rfl⟩
      | none =>
        simp only []
        have hns1 := findSplit_none (by decide) ho1
        have hns2 := findSplit_none (by decide) ho2
        have hns : NoSplit opChars cs := by
          intro l r c hdec hc
          have hmem : c ∈ ['+', '-'] ∨ c ∈ ['*', '/'] := by
            fin_cases hc <;> simp
          rcases hmem with hm | hm
          · exact hns1 l r c hdec hm
          · exact hns2 l r c hdec hm
        rcases WFE_no_depth0 hwf hns with htok | ⟨t, hcs, ht⟩
        · -- token branch: falls through both parenthesis checks
          have hhead : ¬(cs.head? = some '(' ∧ cs.getLast? = some ')') := by
            rintro ⟨h1, _⟩
            have hmem : '(' ∈ cs := by
              rw [List.eq_cons_of_mem_head? h1]
              exact List.mem_cons_self _ _
            exact (tokChar_ne '(' (htok '(' hmem)).1 rfl
          rw [if_neg hhead,
            if_pos (Or.inr (List.all_eq_true.mpr (fun x hx => htok x hx)))]
          exact ⟨_, _, rfl⟩
        · -- full wrap: strip the parentheses and recurse
          subst hcs
          have hhead : (('(' :: t) ++ [')']).head? = some '(' := rfl
          have hlast := getLast?_concatC ('(' :: t) ')'
          rw [if_pos ⟨hhead, hlast⟩, if_neg (by
            intro hc'
            exact hc' hcnt)]
          have hwok := wrapOk_wrap t (WFE_counts ht) (WFE_sufbal ht)
          rw [if_pos hwok]
          have hstrip : (('(' :: t) ++ [')']).tail.dropLast = t := by
            rw [List.cons_append, List.tail_cons]
            exact List.dropLast_concat
          rw [hstrip]
          have hlen' : t.length < fuel := by
            have : (('(' :: t) ++ [')']).length = t.length + 2 := by simp
            omega
          exact ih t ht hlen' nid

/-- `_generate_three_address_code` is exactly the post-order emission with
sequential temporaries starting at the current counter. -/
theorem gen3AC_is_spec (t : LTree) : ∀ (code : List String) (tc : Nat),
    generate_three_address_code t code tc =
      (spec_result t tc, code ++ spec_code t tc, tc + opCount t) := by
  induction t with
  | var i v lb =>
    intro code tc
    simp [generate_three_address_code, spec_result, spec_code, opCount]
  | op i s l r lb ihl ihr =>
    intro code tc
    simp only [generate_three_address_code, spec_result, spec_code, opCount,
      ihl, ihr, Prod.mk.injEq, List.append_assoc]
    exact ⟨trivial, trivial, by omega⟩

/-! ## Node-store model of `RegisterAllocator`

For the visualization-export claim the tree model is not enough:
`self.nodes` retains every node ever created — including candidate nodes
discarded by the associativity check and former children replaced by a
committed regroup — and `get_dag_as_dict` iterates over all of them.  Here
nodes live in an id-indexed store (insertion-ordered, ids never deleted)
and children are stored as ids, matching Python's object references
through the `self.nodes` dict.  Recursions over the store take fuel; the
claims using this model are settled on concrete runs. -/

structure SNode where
  value : String
  ntype : String
  children : List Nat
  label : Option Nat
deriving Repr, DecidableEq

structure Store where
  nodes : List (Nat × SNode)
  nextId : Nat
deriving Repr, DecidableEq

def Store.get (st : Store) (i : Nat) : SNode :=
  (((st.nodes.find? (fun p => p.1 = i)).map Prod.snd)).getD ⟨"", "", [], none⟩

def Store.set (st : Store) (i : Nat) (n : SNode) : Store :=
  { st with nodes := st.nodes.map (fun p => if p.1 = i then (i, n) else p) }

/-- `create_node` (app.py 55–60). -/
def Store.create (st : Store) (v ty : String) : Nat × Store :=
  (st.nextId,
    { nodes := st.nodes ++ [(st.nextId, ⟨v, ty, [], none⟩)], nextId := st.nextId + 1 })

/-- `_parse_expression` over the store (same control flow as `parse_expr`,
but creating the nodes in `self.nodes`). -/
def sparse (ops1 ops2 : List Char) : Nat → List Char → Store →
    Except ParseErr (Nat × Store)
  | 0, _, _ => .error .couldNotParse
  | fuel + 1, cs, st =>
    if cs = [] then .error .emptyExpression
    else
      match findSplit ops1 cs with
      | .error e => .error e
      | .ok (some (l, c, r)) =>
        if l = [] ∨ r = [] then .error .invalidAroundOp
        else
          let (opId, st1) := st.create (String.mk [c]) "operation"
          match sparse ops1 ops2 fuel l st1 with
          | .error e => .error e
          | .ok (lid, st2) =>
            match sparse ops1 ops2 fuel r st2 with
            | .error e => .error e
            | .ok (rid, st3) =>
              .ok (opId, st3.set opId { st3.get opId with children := [lid, rid] })
      | .ok none =>
        match findSplit ops2 cs with
        | .error e => .error e
        | .ok (some (l, c, r)) =>
          if l = [] ∨ r = [] then .error .invalidAroundOp
          else
            let (opId, st1) := st.create (String.mk [c]) "operation"
            match sparse ops1 ops2 fuel l st1 with
            | .error e => .error e
            | .ok (lid, st2) =>
              match sparse ops1 ops2 fuel r st2 with
              | .error e => .error e
              | .ok (rid, st3) =>
                .ok (opId, st3.set opId { st3.get opId with children := [lid, rid] })
        | .ok none =>
          if cs.head? = some '(' ∧ cs.getLast? = some ')' then
            if cntL cs ≠ cntR cs then .error .mismatchedParens
            else if wrapOk cs then sparse ops1 ops2 fuel (cs.tail.dropLast) st
            else
              if cs.length = 1 ∨ cs.all isTokChar then
                .ok (st.create (String.mk cs) "variable")
              else .error .couldNotParse
          else
            if cs.length = 1 ∨ cs.all isTokChar then
              .ok (st.create (String.mk cs) "variable")
            else .error .couldNotParse

/-- `_assign_label` over the store; returns the updated store and the
label.  Labels are read back with `.getD 0` (the pipeline always assigns
before reading). -/
def sassign : Nat → Store → Nat → Bool → Store × Nat
  | 0, st, _, _ => (st, 0)
  | fuel + 1, st, i, is_leftmost =>
    let node := st.get i
    if node.ntype = "variable" then
      let lb := if is_leftmost then 1 else 0
      (st.set i { node with label := some lb }, lb)
    else
      match node.children with
      | [lc, rc] =>
        let (st1, ll) := sassign fuel st lc true
        let (st2, rl) := sassign fuel st1 rc false
        let lb := if ll = rl then ll + 1 else max ll rl
        (st2.set i { st2.get i with label := some lb }, lb)
      | [oc] =>
        let (st1, cl) := sassign fuel st oc true
        (st1.set i { st1.get i with label := some cl }, cl)
      | _ => (st.set i { node with label := some 1 }, 1)

/-- `_rearrange_node` over the store.  The Python function returns the same
node object, so only the store changes. -/
def srearrange : Nat → Store → Nat → Store
  | 0, st, _ => st
  | fuel + 1, st, i =>
    let node := st.get i
    if node.ntype = "variable" then st
    else
      let st1 := node.children.foldl (fun s c => srearrange fuel s c) st
      match (st1.get i).children with
      | [lc, rc] =>
        let l := st1.get lc
        let r := st1.get rc
        -- commutativity
        let st2 :=
          if (st1.get i).value ∈ plusTimes ∧ l.label.getD 0 < r.label.getD 0 then
            st1.set i { st1.get i with children := [rc, lc] }
          else st1
        -- associativity (locals l, lc, rc fixed before the swap)
        if (st2.get i).value ∈ plusTimes ∧ l.value = (st2.get i).value then
          match l.children with
          | [llc, lrc] =>
            let (tempId, st3) := st2.create (st2.get i).value "operation"
            let st4 := st3.set tempId { st3.get tempId with children := [lrc, rc] }
            let (st5, tempLabel) := sassign fuel st4 tempId true
            let current_max := max (l.label.getD 0) (r.label.getD 0)
            let new_max := max ((st5.get llc).label.getD 0) tempLabel
            if new_max < current_max then
              st5.set i { st5.get i with children := [llc, tempId] }
            else st5
          | _ => st2
        else st2
      | _ => st1

/-- One export row of `get_dag_as_dict` (app.py 297–324). -/
structure ExportNode where
  id : Nat
  label : String
  group : String
deriving Repr, DecidableEq

structure ExportEdge where
  src : Nat
  dst : Nat
  arrows : String
deriving Repr, DecidableEq

def labelText : Option Nat → String
  | some n => toString n
  | none => "None"

def get_dag_as_dict (st : Store) : List ExportNode × List ExportEdge :=
  if st.nodes = [] then ([], [])
  else
    (st.nodes.map (fun p =>
        ⟨p.1, p.2.value ++ "\n" ++ "Label: " ++ labelText p.2.label,
          if p.2.ntype = "variable" then "variable" else "operation"⟩),
      st.nodes.flatMap (fun p => p.2.children.map (fun c => ⟨p.1, c, "to"⟩)))

/-- The rearrangement pipeline of `process` on the store: parse, assign
labels, `rearrange_dag` (which rearranges and re-assigns labels). -/
def sprocess (s : String) : Except ParseErr (Nat × Store) :=
  let cs := (s.toList.filter (fun c => !c.isWhitespace)).map
    (fun c => if c = '∗' then '*' else c)
  match sparse ['+', '-'] ['*', '/'] (cs.length + 1) cs ⟨[], 0⟩ with
  | .error e => .error e
  | .ok (root, st) =>
    let st1 := (sassign 100 st root true).1
    let st2 := srearrange 100 st1 root
    let st3 := (sassign 100 st2 root true).1
    .ok (root, st3)

/-- Ids reachable from a node through children edges. -/
def sreach : Nat → Store → List Nat → List Nat
  | 0, _, acc => acc
  | fuel + 1, st, acc =>
    let next := (acc.flatMap (fun i => (st.get i).children)).filter (fun c => ¬ c ∈ acc)
    if next = [] then acc else sreach fuel st (acc ++ next)

/-! ## The live-range allocator (`DAGRegisterAllocation`)

`dag_register_allocation.py`: a digraph with insertion-ordered nodes
(optional string values) and directed edges.  `add_node` on an existing id
updates the value (networkx semantics); `add_edge` first creates any
missing endpoints with value `None` and never duplicates an edge. -/

structure RGraph where
  nodes : List (Nat × Option String)
  edges : List (Nat × Nat)
deriving Repr, DecidableEq

def RGraph.empty : RGraph := ⟨[], []⟩

def RGraph.hasNode (g : RGraph) (i : Nat) : Bool := g.nodes.any (fun p => p.1 = i)

/-- `add_node` (dag_register_allocation.py 13–15). -/
def add_node (g : RGraph) (i : Nat) (v : Option String) : RGraph :=
  if g.hasNode i then
    { g with nodes := g.nodes.map (fun p => if p.1 = i then (i, v) else p) }
  else { g with nodes := g.nodes ++ [(i, v)] }

/-- `add_edge` (dag_register_allocation.py 17–24). -/
def add_edge (g : RGraph) (a b : Nat) : RGraph :=
  let g1 := if g.hasNode a then g else add_node g a none
  let g2 := if g1.hasNode b then g1 else add_node g1 b none
  if (a, b) ∈ g2.edges then g2 else { g2 with edges := g2.edges ++ [(a, b)] }

/-- A graph-construction call, for quantifying over call sequences. -/
inductive GOp where
  | node (i : Nat) (v : Option String)
  | edge (a b : Nat)
deriving Repr, DecidableEq

def runOps (ops : List GOp) : RGraph :=
  ops.foldl (fun g op =>
    match op with
    | .node i v => add_node g i v
    | .edge a b => add_edge g a b) RGraph.empty

def lookupN (m : List (Nat × Nat)) (i : Nat) : Nat :=
  (((m.find? (fun p => p.1 = i)).map Prod.snd)).getD 0

def updateN (m : List (Nat × Nat)) (i v : Nat) : List (Nat × Nat) :=
  m.map (fun p => if p.1 = i then (i, v) else p)

/-- `nx.topological_sort`: repeatedly emit the first remaining node with no
incoming edge from the remaining set. -/
def topoGo (g : RGraph) : Nat → List Nat → List Nat
  | 0, _ => []
  | fuel + 1, remaining =>
    match remaining.find? (fun i =>
      ¬ g.edges.any (fun e => e.2 = i ∧ e.1 ∈ remaining)) with
    | none => []
    | some i => i :: topoGo g fuel (remaining.erase i)

def topo (g : RGraph) : List Nat := topoGo g g.nodes.length (g.nodes.map Prod.fst)

/-- `compute_node_levels` (dag_register_allocation.py 69–81): all levels
start at 0; in topological order, each predecessor raises the level. -/
def compute_node_levels (g : RGraph) : List (Nat × Nat) :=
  (topo g).foldl (fun lv n =>
    let newv := g.edges.foldl (fun acc e =>
      if e.2 = n then max acc (lookupN lv e.1 + 1) else acc) (lookupN lv n)
    updateN lv n newv) (g.nodes.map (fun p => (p.1, 0)))

/-- `nx.descendants`: every node reachable from `n` by directed edges
(excluding `n` for acyclic graphs). -/
def descGo (g : RGraph) : Nat → List Nat → List Nat → List Nat
  | 0, _, acc => acc
  | fuel + 1, frontier, acc =>
    match frontier with
    | [] => acc
    | i :: rest =>
      let succs := ((g.edges.filter (fun e => e.1 = i)).map Prod.snd).filter
        (fun s => ¬ s ∈ acc)
      descGo g fuel (rest ++ succs) (acc ++ succs)

def descendants (g : RGraph) (n : Nat) : List Nat :=
  descGo g (g.nodes.length + g.edges.length) [n] []

/-- `compute_live_ranges` (dag_register_allocation.py 83–100). -/
def compute_live_ranges (g : RGraph) : List (Nat × Nat × Nat) :=
  let levels := compute_node_levels g
  g.nodes.map (fun p =>
    let start := lookupN levels p.1
    let stop := (descendants g p.1).foldl (fun e d =>
      if lookupN levels d > e then lookupN levels d else e) start
    (p.1, start, stop))

def rangeOf (ranges : List (Nat × Nat × Nat)) (i : Nat) : Nat × Nat :=
  (((ranges.find? (fun p => p.1 = i)).map Prod.snd)).getD (0, 0)

/-- Stable sort of the node ids by ascending range start (Python `sorted`
is stable). -/
def sortByStart (ranges : List (Nat × Nat × Nat)) : List Nat :=
  (ranges.map Prod.fst).foldr (fun x acc => insertByStart ranges x acc) []
where
  insertByStart (ranges : List (Nat × Nat × Nat)) (x : Nat) : List Nat → List Nat
    | [] => [x]
    | y :: ys =>
      if (rangeOf ranges x).1 ≤ (rangeOf ranges y).1 then x :: y :: ys
      else y :: insertByStart ranges x ys

/-- One iteration of the allocation loop of `allocate_registers`
(dag_register_allocation.py 113–132).  The accumulator is
(`registers_in_use`, `max_register + 1`); `max_register` starts at −1, so
the second component starts at 0.  `available_registers` is
`set(range(n))` minus the registers of overlapping in-use nodes; filtering
`List.range n` keeps it ascending, so its head is Python's `min`. -/
def allocate_step (ranges : List (Nat × Nat × Nat)) (n : Nat)
    (acc : List (Nat × Nat) × Nat) (node : Nat) : List (Nat × Nat) × Nat :=
  let se := rangeOf ranges node
  let used := (acc.1.filter (fun p =>
    let ov := rangeOf ranges p.1
    ¬ (se.2 < ov.1 ∨ se.1 > ov.2))).map Prod.snd
  let avail := (List.range n).filter (fun reg => ¬ reg ∈ used)
  if avail = [] then (acc.1 ++ [(node, acc.2)], acc.2 + 1)
  else (acc.1 ++ [(node, avail.headD 0)], acc.2)

def allocate_go (ranges : List (Nat × Nat × Nat)) (n : Nat)
    (order : List Nat) : List (Nat × Nat) × Nat :=
  order.foldl (allocate_step ranges n) ([], 0)

/-- `allocate_registers`: returns the node → register assignment and
`max_register + 1`. -/
def allocate_registers (g : RGraph) : List (Nat × Nat) × Nat :=
  let ranges := compute_live_ranges g
  allocate_go ranges g.nodes.length (sortByStart ranges)

/-- The chain DAG 0→1→2. -/
def chainDag : RGraph :=
  add_edge (add_edge (add_node (add_node (add_node RGraph.empty 0 none) 1 none) 2 none) 0 1) 1 2

/-! ## The returned register count of `allocate_registers` is always 0

`available_registers` is pre-seeded with `range(len(nodes))`; at each step
at most `len(registers_in_use) < len(nodes)` registers can be discarded,
so the set is never empty and the `max_register + 1` branch is dead. -/

theorem range_filter_not_mem_ne_nil (n : Nat) (used : List Nat)
    (h : used.length < n) :
    (List.range n).filter (fun reg => ¬ reg ∈ used) ≠ [] := by
  intro hemp
  have hall : ∀ x ∈ List.range n, x ∈ used := by
    intro x hx
    by_contra hnx
    have hmem : x ∈ (List.range n).filter (fun reg => ¬ reg ∈ used) :=
      List.mem_filter.mpr ⟨hx, by simpa using hnx⟩
    rw [hemp] at hmem
    exact absurd hmem (List.not_mem_nil x)
  have hsub : (List.range n).toFinset ⊆ used.toFinset := by
    intro x hx
    rw [List.mem_toFinset] at hx ⊢
    exact hall x hx
  have h1 : ((List.range n).toFinset).card = n := by
    rw [List.toFinset_card_of_nodup (List.nodup_range n), List.length_range]
  have h2 := Finset.card_le_card hsub
  have h3 := used.toFinset_card_le
  omega

theorem allocate_step_spec (ranges : List (Nat × Nat × Nat)) (n : Nat)
    (acc : List (Nat × Nat) × Nat) (node : Nat) (h : acc.1.length < n) :
    (allocate_step ranges n acc node).2 = acc.2 ∧
    (allocate_step ranges n acc node).1.length = acc.1.length + 1 := by
  have hlen : ((acc.1.filter (fun p =>
      ¬ ((rangeOf ranges node).2 < (rangeOf ranges p.1).1 ∨
         (rangeOf ranges node).1 > (rangeOf ranges p.1).2))).map
      Prod.snd).length < n := by
    rw [List.length_map]
    exact lt_of_le_of_lt (List.length_filter_le _ _) h
  have hne := range_filter_not_mem_ne_nil n _ hlen
  simp only [allocate_step]
  rw [if_neg hne]
  simp

theorem allocate_go_zero_aux (ranges : List (Nat × Nat × Nat)) (n : Nat) :
    ∀ (order : List Nat) (inUse : List (Nat × Nat)),
      inUse.length + order.length ≤ n →
      (order.foldl (allocate_step ranges n) (inUse, 0)).2 = 0 := by
  intro order
  induction order with
  | nil => intro inUse _; rfl
  | cons node rest ih =>
    intro inUse h
    rw [List.foldl_cons]
    have hlt : (inUse, (0 : Nat)).1.length < n := by
      simp only [List.length_cons] at h
      simpa using (by omega : inUse.length < n)
    obtain ⟨h1, h2⟩ := allocate_step_spec ranges n (inUse, 0) node hlt
    have hstep : allocate_step ranges n (inUse, 0) node =
        ((allocate_step ranges n (inUse, 0) node).1, 0) := Prod.ext rfl h1
    rw [hstep]
    refine ih _ ?_
    simp only [List.length_cons] at h
    simp only [h2]
    simpa using (by omega : inUse.length + 1 + rest.length ≤ n)

theorem insertByStart_length (ranges : List (Nat × Nat × Nat)) (x : Nat) :
    ∀ l : List Nat, (sortByStart.insertByStart ranges x l).length = l.length + 1 := by
  intro l
  induction l with
  | nil => rfl
  | cons y ys ih =>
    rw [sortByStart.insertByStart]
    split_ifs
    · simp
    · simp [ih]

theorem sortByStart_length (ranges : List (Nat × Nat × Nat)) :
    (sortByStart ranges).length = ranges.length := by
  have haux : ∀ l : List Nat,
      (l.foldr (fun x acc => sortByStart.insertByStart ranges x acc) []).length = l.length := by
    intro l
    induction l with
    | nil => rfl
    | cons x xs ih => rw [List.foldr_cons, insertByStart_length, ih, List.length_cons]
  unfold sortByStart
  rw [haux, List.length_map]

theorem compute_live_ranges_length (g : RGraph) :
    (compute_live_ranges g).length = g.nodes.length := by
  unfold compute_live_ranges
  rw [List.length_map]

/-- The register count returned by `allocate_registers` is 0 on every
graph. -/
theorem allocate_registers_snd_zero (g : RGraph) : (allocate_registers g).2 = 0 := by
  unfold allocate_registers allocate_go
  apply allocate_go_zero_aux
  rw [sortByStart_length, compute_live_ranges_length]
  simp

/-! ## `add_edge` auto-creates its endpoints -/

theorem add_node_edges (g : RGraph) (i : Nat) (v : Option String) :
    (add_node g i v).edges = g.edges := by
  unfold add_node
  split_ifs <;> rfl

theorem hasNode_add_node_mono {g : RGraph} {j : Nat} (i : Nat) (v : Option String)
    (h : g.hasNode j = true) : (add_node g i v).hasNode j = true := by
  unfold add_node RGraph.hasNode at *
  split_ifs with hc
  · simp only [List.any_eq_true, decide_eq_true_eq] at h ⊢
    obtain ⟨p, hp, hpj⟩ := h
    refine ⟨if p.1 = i then (i, v) else p, List.mem_map_of_mem _ hp, ?_⟩
    split_ifs with h2
    · rw [← h2]; exact hpj
    · exact hpj
  · simp only [List.any_eq_true, decide_eq_true_eq, List.mem_append] at h ⊢
    obtain ⟨p, hp, hpj⟩ := h
    exact ⟨p, Or.inl hp, hpj⟩

theorem hasNode_add_node_self (g : RGraph) (i : Nat) (v : Option String) :
    (add_node g i v).hasNode i = true := by
  unfold add_node RGraph.hasNode
  split_ifs with hc
  · unfold RGraph.hasNode at hc
    simp only [List.any_eq_true, decide_eq_true_eq] at hc ⊢
    obtain ⟨p, hp, hpi⟩ := hc
    exact ⟨(i, v), List.mem_map.mpr ⟨p, hp, by rw [if_pos hpi]⟩, rfl⟩
  · simp

theorem hasNode_set_edges (g : RGraph) (E : List (Nat × Nat)) (j : Nat) :
    ({ g with edges := E } : RGraph).hasNode j = g.hasNode j := rfl

theorem nodes_set_edges (g : RGraph) (E : List (Nat × Nat)) :
    ({ g with edges := E } : RGraph).nodes = g.nodes := rfl

theorem add_node_mem_mono (g : RGraph) (i : Nat) (p : Nat × Option String)
    (hnot : ¬ g.hasNode i = true) (hp : p ∈ g.nodes) :
    p ∈ (add_node g i none).nodes := by
  unfold add_node
  rw [if_neg hnot]
  exact List.mem_append_left _ hp

theorem add_edge_hasNode (g : RGraph) (a b : Nat) :
    (add_edge g a b).hasNode a = true ∧ (add_edge g a b).hasNode b = true := by
  constructor
  · simp only [add_edge]
    split_ifs <;> (try simp only [hasNode_set_edges]) <;>
      first
        | assumption
        | exact hasNode_add_node_self g a none
        | exact hasNode_add_node_mono _ _ (by assumption)
        | exact hasNode_add_node_mono _ _ (hasNode_add_node_self g a none)
  · simp only [add_edge]
    split_ifs <;> (try simp only [hasNode_set_edges]) <;>
      first
        | assumption
        | exact hasNode_add_node_self _ b none

theorem add_edge_hasNode_mono (g : RGraph) (a b j : Nat)
    (hj : g.hasNode j = true) : (add_edge g a b).hasNode j = true := by
  simp only [add_edge]
  split_ifs <;> (try simp only [hasNode_set_edges]) <;>
    first
      | exact hj
      | exact hasNode_add_node_mono _ _ hj
      | exact hasNode_add_node_mono _ _ (hasNode_add_node_mono _ _ hj)

theorem add_edge_edges_sub (g : RGraph) (a b : Nat) :
    ∀ e ∈ (add_edge g a b).edges, e ∈ g.edges ∨ e = (a, b) := by
  intro e he
  simp only [add_edge] at he
  split_ifs at he <;>
    (try simp only [add_node_edges, nodes_set_edges, List.mem_append,
      List.mem_singleton] at he) <;>
    tauto

theorem add_edge_creates (g : RGraph) (a b : Nat) (h : g.hasNode a = false) :
    (a, none) ∈ (add_edge g a b).nodes := by
  have h1 : (a, (none : Option String)) ∈ (add_node g a none).nodes := by
    unfold add_node
    rw [if_neg (by simp [h])]
    simp
  simp only [add_edge, h]
  split_ifs <;> (try simp only [nodes_set_edges]) <;>
    first
      | exact False.elim (by assumption)
      | exact h1
      | exact add_node_mem_mono _ b _ (by assumption) h1

/-- Every edge endpoint of a graph built by `add_node`/`add_edge` calls is
a node of the graph. -/
def GInv (g : RGraph) : Prop :=
  ∀ e ∈ g.edges, g.hasNode e.1 = true ∧ g.hasNode e.2 = true

theorem GInv_add_node (g : RGraph) (i : Nat) (v : Option String) (h : GInv g) :
    GInv (add_node g i v) := by
  intro e he
  rw [add_node_edges] at he
  obtain ⟨h1, h2⟩ := h e he
  exact ⟨hasNode_add_node_mono i v h1, hasNode_add_node_mono i v h2⟩

theorem GInv_add_edge (g : RGraph) (a b : Nat) (h : GInv g) :
    GInv (add_edge g a b) := by
  intro e he
  rcases add_edge_edges_sub g a b e he with hin | heq
  · obtain ⟨h1, h2⟩ := h e hin
    exact ⟨add_edge_hasNode_mono g a b e.1 h1, add_edge_hasNode_mono g a b e.2 h2⟩
  · subst heq
    exact add_edge_hasNode g a b

theorem runOps_inv (ops : List GOp) : GInv (runOps ops) := by
  have haux : ∀ (l : List GOp) (g : RGraph), GInv g →
      GInv (l.foldl (fun g op =>
        match op with
        | .node i v => add_node g i v
        | .edge a b => add_edge g a b) g) := by
    intro l
    induction l with
    | nil => intro g h; exact h
    | cons op rest ih =>
      intro g h
      rw [List.foldl_cons]
      cases op with
      | node i v => exact ih _ (GInv_add_node g i v h)
      | edge a b => exact ih _ (GInv_add_edge g a b h)
  exact haux ops RGraph.empty (by intro e he; exact absurd he (List.not_mem_nil e))

/-! ## The claims -/

/-- C1: CORRECTED.  For the chain DAG 0→1→2 the computed levels are 0,1,2 as
claimed, but the live ranges are (0,2),(1,2),(2,2) — `compute_live_ranges`
ends each range at the maximum level over `nx.descendants`, not at the
node's own level — and the returned register count is 0, not 1:
`available_registers` is pre-seeded with `range(len(nodes))`, so the
`max_register + 1` branch is dead and `allocate_registers` returns
`max_register + 1 = 0` on every graph, which is no chromatic number of a
non-empty interval-overlap graph. -/
theorem C1_chain_allocation :
    compute_node_levels chainDag = [(0, 0), (1, 1), (2, 2)] ∧
    compute_live_ranges chainDag = [(0, 0, 2), (1, 1, 2), (2, 2, 2)] ∧
    allocate_registers chainDag = ([(0, 0), (1, 1), (2, 2)], 0) ∧
    ∀ g : RGraph, (allocate_registers g).2 = 0 :=
  ⟨by decide, by decide, by decide, allocate_registers_snd_zero⟩

/-- C1 counterexample: on the chain DAG the returned register count is 0,
not the claimed 1, and the live ranges are not (0,0),(1,1),(2,2). -/
theorem C1_counterexample :
    (allocate_registers chainDag).2 = 0 ∧
    ¬ (allocate_registers chainDag).2 = 1 ∧
    ¬ compute_live_ranges chainDag = [(0, 0, 0), (1, 1, 1), (2, 2, 2)] := by
  refine ⟨by decide, by decide, by decide⟩

/-- C2: CORRECTED.  For every successfully parsed expression the root's
label after `assign_labels` is at least 1, but the peak number of
simultaneously live symbolic registers during `_generate_allocation_steps`
is bounded by the root label **plus one**, not by the root label: the
trace for "a+b" holds R1 and R2 live at once while the root label is 1. -/
theorem C2_label_and_peak (s : String) (t : LTree)
    (h : parse_expression s = .ok t) :
    1 ≤ (assign_labels t).label ∧
    livePeak (assign_labels t) [] ≤ (assign_labels t).label + 1 :=
  ⟨one_le_fresh_true t, livePeak_root (assign_labels t) true (proper_assign_label true t)⟩

theorem C2_witness :
    parse_expression "a+b" = .ok (.op 0 "+" (.var 1 "a" 0) (.var 2 "b" 0) 0) ∧
    (1 ≤ (assign_labels (.op 0 "+" (.var 1 "a" 0) (.var 2 "b" 0) 0)).label ∧
     livePeak (assign_labels (.op 0 "+" (.var 1 "a" 0) (.var 2 "b" 0) 0)) [] ≤
       (assign_labels (.op 0 "+" (.var 1 "a" 0) (.var 2 "b" 0) 0)).label + 1) :=
  ⟨rfl, C2_label_and_peak "a+b" _ rfl⟩

/-- C2 counterexample: for "a+b" the root label is 1 but the peak number of
live registers in the allocation-step trace is 2. -/
theorem C2_counterexample :
    parse_expression "a+b" = .ok (.op 0 "+" (.var 1 "a" 0) (.var 2 "b" 0) 0) ∧
    (assign_labels (.op 0 "+" (.var 1 "a" 0) (.var 2 "b" 0) 0)).label = 1 ∧
    livePeak (assign_labels (.op 0 "+" (.var 1 "a" 0) (.var 2 "b" 0) 0)) [] = 2 := by
  refine ⟨rfl, by decide, by decide⟩

/-- C3: CORRECTED.  "a+(b+c)" and "(a+b)+c" do parse to different trees,
but the labels are not both 2: the Sethi–Ullman labeler gives "(a+b)+c"
root label 1 and "a+(b+c)" root label 2 (the leftmost-leaf rule is
asymmetric).  Rearranging "(a+b)+c" indeed leaves its root label at 1. -/
theorem C3_assoc_labels :
    parse_pipeline "(a+b)+c" =
      .ok (.op 0 "+" (.op 1 "+" (.var 2 "a" 0) (.var 3 "b" 0) 0) (.var 4 "c" 0) 0,
        ["t1 = a + b", "t2 = t1 + c"], 3, 5) ∧
    parse_pipeline "a+(b+c)" =
      .ok (.op 0 "+" (.var 1 "a" 0) (.op 2 "+" (.var 3 "b" 0) (.var 4 "c" 0) 0) 0,
        ["t1 = b + c", "t2 = a + t1"], 3, 5) ∧
    eraseT (.op 0 "+" (.op 1 "+" (.var 2 "a" 0) (.var 3 "b" 0) 0) (.var 4 "c" 0) 0) ≠
      eraseT (.op 0 "+" (.var 1 "a" 0) (.op 2 "+" (.var 3 "b" 0) (.var 4 "c" 0) 0) 0) ∧
    (assign_labels
      (.op 0 "+" (.op 1 "+" (.var 2 "a" 0) (.var 3 "b" 0) 0) (.var 4 "c" 0) 0)).label = 1 ∧
    (assign_labels
      (.op 0 "+" (.var 1 "a" 0) (.op 2 "+" (.var 3 "b" 0) (.var 4 "c" 0) 0) 0)).label = 2 ∧
    ((rearrange_dag (assign_labels
      (.op 0 "+" (.op 1 "+" (.var 2 "a" 0) (.var 3 "b" 0) 0) (.var 4 "c" 0) 0)) 5 3).1).label
      = 1 := by
  refine ⟨rfl, rfl, by decide, by decide, by decide, by decide⟩

/-- C3 counterexample: the root label of the parse of "(a+b)+c" is 1, not
the claimed 2 (while "a+(b+c)" does get 2). -/
theorem C3_counterexample :
    parse_expression "(a+b)+c" =
      .ok (.op 0 "+" (.op 1 "+" (.var 2 "a" 0) (.var 3 "b" 0) 0) (.var 4 "c" 0) 0) ∧
    (assign_labels
      (.op 0 "+" (.op 1 "+" (.var 2 "a" 0) (.var 3 "b" 0) 0) (.var 4 "c" 0) 0)).label = 1 ∧
    ¬ (assign_labels
      (.op 0 "+" (.op 1 "+" (.var 2 "a" 0) (.var 3 "b" 0) 0) (.var 4 "c" 0) 0)).label = 2 := by
  refine ⟨rfl, by decide, by decide⟩

/-- C4: CONFIRMED.  The empty input gives the empty-expression error, "a+"
gives the invalid-around-operator error, "(a+b" gives the mismatched-
parentheses error, and on every well-formed expression (a token, a
parenthesized well-formed expression, or two well-formed expressions
joined by an operator — after whitespace removal) the parser succeeds. -/
theorem C4_parse_errors :
    parse_expression "" = .error .emptyExpression ∧
    parse_expression "a+" = .error .invalidAroundOp ∧
    parse_expression "(a+b" = .error .mismatchedParens ∧
    (∀ s : String, WFE ((s.toList.filter (fun c => !c.isWhitespace)).map
        (fun c => if c = '∗' then '*' else c)) →
      ∃ t : LTree, parse_expression s = .ok t) := by
  refine ⟨rfl, rfl, rfl, ?_⟩
  intro s hw
  obtain ⟨t, nid', heq⟩ := parse_expr_wf _ _ hw (Nat.lt_succ_self _) 0
  refine ⟨t, ?_⟩
  unfold parse_expression parse_root
  rw [heq]

theorem C4_witness :
    WFE ((("a" : String).toList.filter (fun c => !c.isWhitespace)).map
        (fun c => if c = '∗' then '*' else c)) ∧
    ∃ t : LTree, parse_expression "a" = .ok t :=
  ⟨WFE.tok _ (by decide) (by decide),
    C4_parse_errors.2.2.2 "a" (WFE.tok _ (by decide) (by decide))⟩

/-- C5: CONFIRMED.  For every parsed expression, rearranging and relabeling
(`rearrange_dag`) never increases the root label: the swap and regroup
steps of `_rearrange_node` are monotone non-increasing on the freshly
recomputed Sethi–Ullman label. -/
theorem C5_rearrange_label_le (s : String) (t : LTree)
    (h : parse_expression s = .ok t) (nid tc : Nat) :
    ((rearrange_dag (assign_labels t) nid tc).1).label ≤ (assign_labels t).label := by
  have hp : proper true (assign_labels t) := proper_assign_label true t
  have h2 := rearrange_node_fresh_le (assign_labels t) hp nid
  have h3 : (rearrange_dag (assign_labels t) nid tc).1 =
      assign_labels (rearrange_node (assign_labels t) nid).1 := rfl
  have h4 : fresh true (assign_labels t) = (assign_labels t).label := by
    unfold fresh
    rw [hp]
  rw [h3]
  rw [← h4]
  exact h2

theorem C5_witness :
    parse_expression "a+b" = .ok (.op 0 "+" (.var 1 "a" 0) (.var 2 "b" 0) 0) ∧
    ((rearrange_dag (assign_labels (.op 0 "+" (.var 1 "a" 0) (.var 2 "b" 0) 0)) 3 2).1).label ≤
      (assign_labels (.op 0 "+" (.var 1 "a" 0) (.var 2 "b" 0) 0)).label :=
  ⟨rfl, C5_rearrange_label_le "a+b" _ rfl 3 2⟩

/-- C6: CORRECTED.  After `rearrange_dag` the three-address code is indeed
regenerated from scratch as the post-order emission over the rearranged
tree with sequential temporaries — but the temporaries do **not** restart
at t1: `rearrange_dag` never resets `temp_counter`, so regeneration
continues from the counter left by the first generation (t{k+1}, t{k+2}, …
where k is the number of operation nodes). -/
theorem C6_regenerated_code (s : String) (t : LTree) (code : List String)
    (tc nid : Nat) (h : parse_pipeline s = .ok (t, code, tc, nid)) :
    tc = opCount t + 1 ∧
    (rearrange_dag (assign_labels t) nid tc).2.1 =
      spec_code ((rearrange_dag (assign_labels t) nid tc).1) (opCount t + 1) := by
  have htc : tc = 1 + opCount t := by
    unfold parse_pipeline at h
    cases hpr : parse_root s with
    | error e =>
      rw [hpr] at h
      exact absurd h (by simp)
    | ok p =>
      obtain ⟨t0, nid0⟩ := p
      rw [hpr] at h
      simp only [] at h
      rw [gen3AC_is_spec t0 [] 1] at h
      simp only [Except.ok.injEq, Prod.mk.injEq] at h
      obtain ⟨h1, _, h3, _⟩ := h
      rw [← h1, ← h3]
  have h1 : (rearrange_dag (assign_labels t) nid tc).1 =
      assign_labels (rearrange_node (assign_labels t) nid).1 := rfl
  have hr : (rearrange_dag (assign_labels t) nid tc).2.1 =
      (generate_three_address_code
        (assign_labels (rearrange_node (assign_labels t) nid).1) [] tc).2.1 := rfl
  refine ⟨by omega, ?_⟩
  rw [hr, gen3AC_is_spec, h1, htc, Nat.add_comm 1 (opCount t)]
  simp

theorem C6_witness :
    parse_pipeline "a+b" =
      .ok (.op 0 "+" (.var 1 "a" 0) (.var 2 "b" 0) 0, ["t1 = a + b"], 2, 3) ∧
    (2 = opCount (.op 0 "+" (.var 1 "a" 0) (.var 2 "b" 0) 0 : LTree) + 1 ∧
     (rearrange_dag (assign_labels (.op 0 "+" (.var 1 "a" 0) (.var 2 "b" 0) 0)) 3 2).2.1 =
       spec_code
         ((rearrange_dag (assign_labels (.op 0 "+" (.var 1 "a" 0) (.var 2 "b" 0) 0)) 3 2).1)
         (opCount (.op 0 "+" (.var 1 "a" 0) (.var 2 "b" 0) 0 : LTree) + 1)) :=
  ⟨rfl, C6_regenerated_code "a+b" _ _ _ _ rfl⟩

/-- C6 counterexample: for "a+b" the first generation emits ["t1 = a + b"]
with the counter left at 2, and the regeneration after `rearrange_dag`
emits ["t2 = a + b"] — the temporaries do not start again from t1. -/
theorem C6_counterexample :
    parse_pipeline "a+b" =
      .ok (.op 0 "+" (.var 1 "a" 0) (.var 2 "b" 0) 0, ["t1 = a + b"], 2, 3) ∧
    (rearrange_dag (assign_labels (.op 0 "+" (.var 1 "a" 0) (.var 2 "b" 0) 0)) 3 2).2.1 =
      ["t2 = a + b"] ∧
    ¬ (rearrange_dag (assign_labels (.op 0 "+" (.var 1 "a" 0) (.var 2 "b" 0) 0)) 3 2).2.1 =
      ["t1 = a + b"] := by
  refine ⟨rfl, rfl, by decide⟩

/-- C7: CONFIRMED.  Both the commutativity swap and the associativity
regroup of `_rearrange_node` are guarded by `operator ∈ {+, *}`.  In every
expression DAG — mixed operators included — a binary node whose operator
is `-` or `/` never has its children reordered or regrouped: the
rearrangement step at such a node returns the recursively-rearranged
children in their original order, creating no candidate and consuming no
id (stated at the step level for arbitrary children, and at the tree level
for a `-`/`/` node with arbitrary subtrees).  Consequently, on a parsed
expression whose operators are all `-`/`/` the rearranger is the identity
(node ids included) and the full `rearrange_dag` pipeline preserves the
tree shape. -/
theorem C7_nonComm_preserved :
    (∀ (i : Nat) (s : String) (lb : Nat) (l' r' : LTree) (nid2 : Nat),
      s ∈ ["-", "/"] →
      rearrange_op i s lb l' r' nid2 = (.op i s l' r' lb, nid2)) ∧
    (∀ (i : Nat) (s : String) (l r : LTree) (lb nid : Nat),
      s ∈ ["-", "/"] →
      rearrange_node (.op i s l r lb) nid =
        (.op i s (rearrange_node l nid).1
          (rearrange_node r (rearrange_node l nid).2).1 lb,
         (rearrange_node r (rearrange_node l nid).2).2)) ∧
    (∀ (s : String) (t : LTree), parse_expression s = .ok t →
      opsIn ["-", "/"] t → ∀ nid tc : Nat,
      rearrange_node (assign_labels t) nid = (assign_labels t, nid) ∧
      eraseT ((rearrange_dag (assign_labels t) nid tc).1) = eraseT t) := by
  refine ⟨rearrange_op_keep, rearrange_node_keep, ?_⟩
  intro s t h hops nid tc
  have hops' : opsIn ["-", "/"] (assign_labels t) :=
    opsIn_assign_label ["-", "/"] true t hops
  have h1 := rearrange_node_nonComm (assign_labels t) hops' nid
  refine ⟨h1, ?_⟩
  have h2 : (rearrange_dag (assign_labels t) nid tc).1 =
      assign_labels (rearrange_node (assign_labels t) nid).1 := rfl
  rw [h2, h1]
  simp only [assign_labels, eraseT_assign_label]

theorem C7_witness :
    ("-" ∈ (["-", "/"] : List String) ∧
      rearrange_node (.op 0 "-" (.op 1 "+" (.var 2 "a" 1) (.var 3 "b" 0) 1)
          (.op 4 "+" (.var 5 "c" 0) (.var 6 "d" 0) 1) 1) 7 =
        (.op 0 "-"
          (rearrange_node (.op 1 "+" (.var 2 "a" 1) (.var 3 "b" 0) 1) 7).1
          (rearrange_node (.op 4 "+" (.var 5 "c" 0) (.var 6 "d" 0) 1)
            (rearrange_node (.op 1 "+" (.var 2 "a" 1) (.var 3 "b" 0) 1) 7).2).1 1,
         (rearrange_node (.op 4 "+" (.var 5 "c" 0) (.var 6 "d" 0) 1)
           (rearrange_node (.op 1 "+" (.var 2 "a" 1) (.var 3 "b" 0) 1) 7).2).2)) ∧
    (parse_expression "a-b/c" =
      .ok (.op 0 "-" (.var 1 "a" 0)
        (.op 2 "/" (.var 3 "b" 0) (.var 4 "c" 0) 0) 0) ∧
     opsIn ["-", "/"]
       (.op 0 "-" (.var 1 "a" 0) (.op 2 "/" (.var 3 "b" 0) (.var 4 "c" 0) 0) 0) ∧
     rearrange_node (assign_labels
        (.op 0 "-" (.var 1 "a" 0) (.op 2 "/" (.var 3 "b" 0) (.var 4 "c" 0) 0) 0)) 5 =
      (assign_labels
        (.op 0 "-" (.var 1 "a" 0) (.op 2 "/" (.var 3 "b" 0) (.var 4 "c" 0) 0) 0), 5) ∧
     eraseT ((rearrange_dag (assign_labels
        (.op 0 "-" (.var 1 "a" 0) (.op 2 "/" (.var 3 "b" 0) (.var 4 "c" 0) 0) 0)) 5 3).1) =
      eraseT (.op 0 "-" (.var 1 "a" 0) (.op 2 "/" (.var 3 "b" 0) (.var 4 "c" 0) 0) 0)) :=
  ⟨⟨by decide, C7_nonComm_preserved.2.1 0 "-"
      (.op 1 "+" (.var 2 "a" 1) (.var 3 "b" 0) 1)
      (.op 4 "+" (.var 5 "c" 0) (.var 6 "d" 0) 1) 1 7 (by decide)⟩,
   rfl, ⟨by decide, trivial, by decide, trivial, trivial⟩,
   C7_nonComm_preserved.2.2 "a-b/c" _ rfl
     ⟨by decide, trivial, by decide, trivial, trivial⟩ 5 3⟩

/-- C8: CONFIRMED.  "a+b" parses to a root `+` node with left child `a` and
right child `b`; labeling gives a=1, b=0, root=1; and the generated
three-address code is exactly ["t1 = a + b"]. -/
theorem C8_a_plus_b :
    parse_expression "a+b" = .ok (.op 0 "+" (.var 1 "a" 0) (.var 2 "b" 0) 0) ∧
    assign_labels (.op 0 "+" (.var 1 "a" 0) (.var 2 "b" 0) 0) =
      .op 0 "+" (.var 1 "a" 1) (.var 2 "b" 0) 1 ∧
    parse_pipeline "a+b" =
      .ok (.op 0 "+" (.var 1 "a" 0) (.var 2 "b" 0) 0, ["t1 = a + b"], 2, 3) := by
  refine ⟨rfl, by decide, rfl⟩

/-- The store produced by the `process` pipeline on "(a+b)+c": node 5 is
the discarded associativity candidate (its regrouped label 1 is not
strictly below the current maximum 1). -/
def C9store : Store :=
  ⟨[(0, ⟨"+", "operation", [1, 4], some 1⟩),
    (1, ⟨"+", "operation", [2, 3], some 1⟩),
    (2, ⟨"a", "variable", [], some 1⟩),
    (3, ⟨"b", "variable", [], some 0⟩),
    (4, ⟨"c", "variable", [], some 0⟩),
    (5, ⟨"+", "operation", [3, 4], some 1⟩)], 6⟩

/-- C9: CORRECTED.  The discarded candidate is unreachable from the root,
but it is **not** absent from the visualization export: `get_dag_as_dict`
iterates over all stored nodes, so the export for "(a+b)+c" lists the
discarded candidate node 5 and its two edges alongside the five reachable
nodes. -/
theorem C9_discarded_exported :
    sprocess "(a+b)+c" = .ok (0, C9store) ∧
    (get_dag_as_dict C9store).1 =
      [⟨0, "+\nLabel: 1", "operation"⟩, ⟨1, "+\nLabel: 1", "operation"⟩,
       ⟨2, "a\nLabel: 1", "variable"⟩, ⟨3, "b\nLabel: 0", "variable"⟩,
       ⟨4, "c\nLabel: 0", "variable"⟩, ⟨5, "+\nLabel: 1", "operation"⟩] ∧
    (get_dag_as_dict C9store).2 =
      [⟨0, 1, "to"⟩, ⟨0, 4, "to"⟩, ⟨1, 2, "to"⟩, ⟨1, 3, "to"⟩,
       ⟨5, 3, "to"⟩, ⟨5, 4, "to"⟩] ∧
    sreach 100 C9store [0] = [0, 1, 4, 2, 3] ∧
    ¬ 5 ∈ sreach 100 C9store [0] := by
  refine ⟨rfl, by decide, by decide, by decide, by decide⟩

/-- C9 counterexample: the export node list for "(a+b)+c" contains the
discarded candidate node 5 (which is not reachable from root 0), and the
edge list contains its edges 5→3 and 5→4. -/
theorem C9_counterexample :
    sprocess "(a+b)+c" = .ok (0, C9store) ∧
    (⟨5, "+\nLabel: 1", "operation"⟩ : ExportNode) ∈ (get_dag_as_dict C9store).1 ∧
    (⟨5, 3, "to"⟩ : ExportEdge) ∈ (get_dag_as_dict C9store).2 ∧
    (⟨5, 4, "to"⟩ : ExportEdge) ∈ (get_dag_as_dict C9store).2 ∧
    ¬ 5 ∈ sreach 100 C9store [0] := by
  refine ⟨rfl, by decide, by decide, by decide, by decide⟩

/-- C10: CONFIRMED.  `add_edge` first creates any endpoint not present in
the graph as a node with value `None`, and after any sequence of
`add_node`/`add_edge` calls every edge's endpoints are members of the node
set. -/
theorem C10_add_edge_endpoints :
    (∀ (g : RGraph) (a b : Nat),
      (add_edge g a b).hasNode a = true ∧ (add_edge g a b).hasNode b = true) ∧
    (∀ (g : RGraph) (a b : Nat), g.hasNode a = false →
      (a, none) ∈ (add_edge g a b).nodes) ∧
    (∀ ops : List GOp, ∀ e ∈ (runOps ops).edges,
      (runOps ops).hasNode e.1 = true ∧ (runOps ops).hasNode e.2 = true) :=
  ⟨add_edge_hasNode, add_edge_creates, fun ops => runOps_inv ops⟩

theorem C10_witness :
    (RGraph.empty.hasNode 0 = false ∧
      (0, (none : Option String)) ∈ (add_edge RGraph.empty 0 1).nodes) ∧
    ((0, 1) ∈ (runOps [GOp.edge 0 1]).edges ∧
      (runOps [GOp.edge 0 1]).hasNode 0 = true ∧
      (runOps [GOp.edge 0 1]).hasNode 1 = true) :=
  ⟨⟨by decide, C10_add_edge_endpoints.2.1 RGraph.empty 0 1 (by decide)⟩,
   ⟨by decide, C10_add_edge_endpoints.2.2 [GOp.edge 0 1] (0, 1) (by decide)⟩⟩

end DAGVis
